import Mathlib

/-!
# Replay driver of Examples/Monocular/mono_euroc_vins.cc

A shallow embedding of the stream alignment done by `main` (start-frame search,
per-frame inertial batches, replay loop) and of the two loaders `LoadImages` and
`LoadImus`, followed by the properties proved about them.

Conventions of the embedding.

* `std::vector<T>` is `List T`, `std::string` is `List Char`.
* An element access `v[i]` with `i` at or beyond `v.size()` has no defined
  result in C++.  The embedding stops there and reports the index that was read
  (`Read.pastEnd`, `Ending.pastEnd`).
* The aligner only compares timestamps (`<=`, `>=`, `<`).  It is therefore stated
  over an arbitrary linearly ordered type `α`; the doubles other than NaN are one.
* The loaders use the number extraction and the arithmetic of the C++ library.
  These enter as a parameter (`DoubleOps`); `exactOps` instantiates them with exact
  rational arithmetic and a reader of decimal numerals, for evaluation on concrete
  files, and `binary64Ops` with the arithmetic of `double`.
* A value of type `double` is the rational number it stands for, and an operation
  on `double`s is the exact operation followed by rounding to the nearest `double`
  (`roundDouble`).
* The counters `imagestart`, `ni` (`int`) and `imuindex` (`long`) start at 0 and
  only grow by 1 up to a vector size; they are natural numbers here.  The loop
  bound `nImages` is an `int` that the caller may set from the command line, so
  it is an integer.
-/

namespace MonoEurocVins

/-! ## Data model -/

/-- Modelled from the spec: the header `IMU/imudata.h` is not among the sources.
One inertial sample (`InertialSample` of the spec): angular velocity `_g`, linear
acceleration `_a` and timestamp `_t` in seconds.  The source builds it with
`IMUData(gx, gy, gz, ax, ay, az, t)` and reads only `_t`. -/
structure IMUData (α : Type) where
  /-- angular velocity (gx, gy, gz) -/
  _g : α × α × α
  /-- linear acceleration (ax, ay, az) -/
  _a : α × α × α
  /-- timestamp in seconds -/
  _t : α
deriving DecidableEq, Repr

/-- Result of a loop that indexes a vector without a bound check: either the value
it computes, or the index at which it read at or beyond the size of the vector. -/
inductive Read (β : Type) where
  | val (b : β)
  | pastEnd (index : Nat)
deriving DecidableEq, Repr

/-- The three vectors `main` indexes. -/
inductive Vec where
  | vImus
  | vTimestamps
  | vstrImageFilenames
deriving DecidableEq, Repr

/-- One call `SLAM.TrackMonoVI(im, vimu, tframe)` made for frame `ni`.  The field
`imuindex` is the value of the inertial cursor when the call is made; it is not
passed to the engine and is recorded for the statements about the cursor. -/
structure Delivery (α : Type) where
  ni : Nat
  vimu : List (IMUData α)
  tframe : α
  imuindex : Nat
deriving DecidableEq, Repr

/-- How the replay part of `main` ends. -/
inductive Ending where
  /-- the `for` loop ran until `ni < nImages` failed; `imuindex` is the final cursor -/
  | completed (imuindex : Nat)
  /-- the image of frame `ni` was empty: `return 1`; `imuindex` is the cursor at that
  point, after the batch loop of frame `ni` -/
  | imageEmpty (ni : Nat) (imuindex : Nat)
  /-- the vector `v` was read at `index`, at or beyond its size -/
  | pastEnd (v : Vec) (index : Nat)
deriving DecidableEq, Repr

/-- The calls made to the engine, in order, and how the replay ended. -/
structure Run (α : Type) where
  delivered : List (Delivery α)
  ending : Ending
deriving DecidableEq, Repr

section Aligner

variable {α : Type} [LinearOrder α]

/-! ## Stream aligner (`main`, lines 88-174) -/

/-- Start-frame search, lines 93-97:
`while (1) { if (startimutime <= vTimestamps[imagestart]) break; imagestart++; }`.
The list argument holds the entries `vTimestamps[imagestart], vTimestamps[imagestart+1], ...`
still ahead of the cursor; when none is left the next read is past the end. -/
def imageStartSearch (startimutime : α) : List α → Nat → Read Nat
  | [], imagestart => .pastEnd imagestart
  | t :: rest, imagestart =>
      if startimutime ≤ t then .val imagestart
      else imageStartSearch startimutime rest (imagestart + 1)

/-- Per-frame inertial batch, lines 113-120:
`while (1) { imudata = vImus[imuindex]; if (imudata._t >= tframe) break;
vimu.push_back(imudata); imuindex++; }`.
The list argument holds the samples `vImus[imuindex], vImus[imuindex+1], ...` still
ahead of the cursor; the result is the batch and the new cursor. -/
def collectBatch (tframe : α) :
    List (IMUData α) → Nat → List (IMUData α) → Read (List (IMUData α) × Nat)
  | [], imuindex, _ => .pastEnd imuindex
  | imudata :: rest, imuindex, vimu =>
      if imudata._t ≥ tframe then .val (vimu, imuindex)
      else collectBatch tframe rest (imuindex + 1) (vimu ++ [imudata])

/-- Replay loop, lines 106-174: `for (int ni = imagestart; ni < nImages; ni++)`.
The first numeric argument is the number of iterations left, `nImages - ni`.
`imEmpty file` tells whether `cv::imread(file)` gives an empty image.  Each
iteration reads `vstrImageFilenames[ni]` and `vTimestamps[ni]`, collects the batch,
returns 1 on an empty image, otherwise calls the engine, and reads
`vTimestamps[ni+1]` for the target interval when `ni < nImages - 1`.  The clock
readings, `vTimesTrack[ni]` and the sleep do not touch the cursors and are left out. -/
def replayLoop (vImus : List (IMUData α)) (vstrImageFilenames : List (List Char))
    (vTimestamps : List α) (imEmpty : List Char → Bool) (nImages : Int) :
    Nat → Nat → Nat → List (Delivery α) → Run α
  | 0, _, imuindex, delivered => ⟨delivered, .completed imuindex⟩
  | remaining + 1, ni, imuindex, delivered =>
    match vstrImageFilenames[ni]? with
    | none => ⟨delivered, .pastEnd .vstrImageFilenames ni⟩
    | some file =>
      match vTimestamps[ni]? with
      | none => ⟨delivered, .pastEnd .vTimestamps ni⟩
      | some tframe =>
        match collectBatch tframe (vImus.drop imuindex) imuindex [] with
        | .pastEnd index => ⟨delivered, .pastEnd .vImus index⟩
        | .val (vimu, imuindex1) =>
          if imEmpty file then ⟨delivered, .imageEmpty ni imuindex1⟩
          else
            let delivered1 := delivered ++ [⟨ni, vimu, tframe, imuindex1⟩]
            if (ni : Int) < nImages - 1 ∧ vTimestamps[ni + 1]? = none then
              ⟨delivered1, .pastEnd .vTimestamps (ni + 1)⟩
            else
              replayLoop vImus vstrImageFilenames vTimestamps imEmpty nImages
                remaining (ni + 1) imuindex1 delivered1

/-- Lines 88-174 of `main`: `startimutime = vImus[0]._t`, the start-frame search,
`imuindex = 0`, then the replay loop from `imagestart` up to `nImages`.
(`main` reaches this point only with `vImus` non-empty.) -/
def replay (vImus : List (IMUData α)) (vstrImageFilenames : List (List Char))
    (vTimestamps : List α) (imEmpty : List Char → Bool) (nImages : Int) : Run α :=
  match vImus with
  | [] => ⟨[], .pastEnd .vImus 0⟩
  | imu0 :: _ =>
    match imageStartSearch imu0._t vTimestamps 0 with
    | .pastEnd index => ⟨[], .pastEnd .vTimestamps index⟩
    | .val imagestart =>
      replayLoop vImus vstrImageFilenames vTimestamps imEmpty nImages
        (nImages - imagestart).toNat imagestart 0 []

/-! ### Specification of the deliveries -/

/-- What the spec asks of a sequence of deliveries that starts at frame `ni` with
the inertial cursor at `c`: each delivery is for the next frame and carries its
timestamp, its batch is the longest run of samples ahead of the cursor with
timestamp below the frame timestamp, the cursor moves by the length of the batch
and stays inside `vImus`. -/
def Steps (vImus : List (IMUData α)) (vTimestamps : List α) :
    Nat → Nat → List (Delivery α) → Prop
  | _, _, [] => True
  | ni, c, d :: ds =>
      d.ni = ni ∧ vTimestamps[ni]? = some d.tframe ∧
      d.vimu = (vImus.drop c).takeWhile (fun x => decide (x._t < d.tframe)) ∧
      d.imuindex = c + d.vimu.length ∧ d.imuindex < vImus.length ∧
      Steps vImus vTimestamps (ni + 1) d.imuindex ds

/-- The inertial cursor after the given deliveries, `c` when there is none. -/
def cursorAfter (c : Nat) : List (Delivery α) → Nat
  | [] => c
  | d :: ds => cursorAfter d.imuindex ds

/-- The samples handed to the engine by the given deliveries, in order. -/
def batches (ds : List (Delivery α)) : List (IMUData α) :=
  (ds.map (fun d => d.vimu)).flatten

end Aligner

/-! ### The replay scenario of the spec -/

/-- A sample with the given timestamp and zero angular velocity and acceleration. -/
def sampleAt (t : ℚ) : IMUData ℚ := ⟨(0, 0, 0), (0, 0, 0), t⟩

/-- Inertial samples at 0.0, 0.1, 0.2 and 0.3 seconds. -/
def scenarioImus : List (IMUData ℚ) := [sampleAt 0, sampleAt 0.1, sampleAt 0.2, sampleAt 0.3]

/-- Frames at 0.05, 0.15 and 0.25 seconds. -/
def scenarioTimestamps : List ℚ := [0.05, 0.15, 0.25]

/-- File names of the three frames of the scenario. -/
def scenarioFiles : List (List Char) := ["f0.png".toList, "f1.png".toList, "f2.png".toList]

/-- Inertial samples at 0, 1, 2 and 3 seconds, for the tie-break example: frames at
1, 2 and 3 seconds each coincide with a sample. -/
def tieImus : List (IMUData ℚ) := [sampleAt 0, sampleAt 1, sampleAt 2, sampleAt 3]

/-! ## Loaders -/

/-- The strings `s` that successive calls `getline(f, s)` give to the body of
`while (!f.eof()) { string s; getline(f, s); ... }` on a file with the given
content: the text before each newline, then the text after the last newline (empty
when the file ends with a newline or is empty), after which `eof()` holds. -/
def getlines : List Char → List (List Char)
  | [] => [[]]
  | c :: rest =>
      if c = '\n' then [] :: getlines rest
      else
        match getlines rest with
        | [] => [[c]]
        | s :: more => (c :: s) :: more

/-- The part of `double` and of `operator>>` of the C++ library that the loaders
use, taken as a parameter.  `β` is the type of the values. -/
structure DoubleOps (β : Type) where
  /-- the extraction `ss >> tmpd` on the unread characters of a stream: the value
  read and the characters left unread, or `none` when the extraction fails -/
  extract : List Char → Option (β × List Char)
  /-- the value the target holds after a failed extraction from the given characters -/
  unextracted : List Char → β
  /-- the product `x * 1e-9` -/
  mul1em9 : β → β
  /-- the quotient `x / 1e9` -/
  div1e9 : β → β

/-- The characters `std::isspace` accepts in the C locale. -/
def isspace (c : Char) : Bool :=
  c = ' ' || c = '\t' || c = '\n' || c = '\x0b' || c = '\x0c' || c = '\r'

/-- A decimal numeral as read from text: sign, the digits as a number, and how
many of those digits stood after the decimal point. -/
structure Decimal where
  negative : Bool
  digits : Nat
  decimals : Nat
deriving DecidableEq, Repr

/-- The number written by a string of decimal digits. -/
def natOfDigits (ds : List Char) : Nat :=
  ds.foldl (fun n c => 10 * n + (c.toNat - '0'.toNat)) 0

/-- A reader for plain decimal numerals, standing for `ss >> tmpd` on such input:
it skips leading white space, then reads an optional sign, digits, and an optional
point followed by digits; it fails when no digit was read.  Exponents and the
other spellings the library accepts are not covered. -/
def scanDecimal (ss : List Char) : Option (Decimal × List Char) :=
  let s1 := ss.dropWhile isspace
  let signed : Bool × List Char :=
    match s1 with
    | '-' :: r => (true, r)
    | '+' :: r => (false, r)
    | _ => (false, s1)
  let whole := signed.2.span Char.isDigit
  let frac : List Char × List Char :=
    match whole.2 with
    | '.' :: r => r.span Char.isDigit
    | _ => ([], whole.2)
  if whole.1 = [] ∧ frac.1 = [] then none
  else some (⟨signed.1, natOfDigits (whole.1 ++ frac.1), frac.1.length⟩, frac.2)

/-- The rational number a decimal numeral denotes. -/
def Decimal.toRat (d : Decimal) : ℚ :=
  (if d.negative then -1 else 1) * (d.digits : ℚ) / 10 ^ d.decimals

/-- Exact arithmetic on rationals with the decimal reader: the instance at which
the loaders are evaluated on concrete files. -/
def exactOps : DoubleOps ℚ where
  extract ss := (scanDecimal ss).map (fun r => (r.1.toRat, r.2))
  unextracted _ := 0
  mul1em9 x := x * (1 / 10 ^ 9)
  div1e9 x := x / 10 ^ 9

/-! ### The type `double` -/

/-- The integer nearest to `q`, the even one when two are equally near. -/
def roundHalfEven (q : ℚ) : ℤ :=
  if q - Int.floor q < 1 / 2 then Int.floor q
  else if 1 / 2 < q - Int.floor q then Int.floor q + 1
  else if Int.floor q % 2 = 0 then Int.floor q
  else Int.floor q + 1

/-- The exponent of the unit in the last place of the `double` format at `q ≠ 0`:
the `e` with `2^52 ≤ |q| / 2^e < 2^53`, so that the values of the format next to `q`
are the multiples of `2^e`. -/
def ulpExponent (q : ℚ) : ℤ := Int.log 2 |q| - 52

/-- The value of type `double` (IEEE 754 binary64, significand of 53 bits) that an
operation with the exact result `q` yields: the nearest multiple of the unit in the
last place, the one with the even significand when two are equally near.  The
exponent is not bounded here: overflow to infinity and the coarser spacing below
`2^-1022` are not modelled, nor are the sign of zero and NaN. -/
def roundDouble (q : ℚ) : ℚ :=
  if q = 0 then 0
  else (roundHalfEven (q / 2 ^ ulpExponent q) : ℚ) * 2 ^ ulpExponent q

/-- The arithmetic of `double` with the decimal reader: a numeral is read as the
nearest `double`, the literals `1e-9` and `1e9` are the nearest `double`s (`1e9` is
exact), and a product or quotient is the exact result rounded to the nearest
`double`. -/
def binary64Ops : DoubleOps ℚ where
  extract ss := (scanDecimal ss).map (fun r => (roundDouble r.1.toRat, r.2))
  unextracted _ := 0
  mul1em9 x := roundDouble (x * roundDouble (1 / 10 ^ 9))
  div1e9 x := roundDouble (x / 10 ^ 9)

section Loaders

variable {β : Type}

/-- The value `t` holds after `double t; ss >> t;` on a stream holding `s`, lines
248-249. -/
def valueAfterExtract (D : DoubleOps β) (s : List Char) : β :=
  match D.extract s with
  | some (v, _) => v
  | none => D.unextracted s

/-- Loop of `LoadImages`, lines 239-253, over the strings read by `getline`: a
non-empty `s` appends `strImagePath + "/" + ss.str() + ".png"` to `vstrImages`
(the stream `ss` holds `s`) and `t/1e9` to `vTimeStamps`, where `t` is what
`ss >> t` leaves in `t`. -/
def LoadImages (D : DoubleOps β) (strImagePath : List Char) (fTimes : List Char) :
    List (List Char) × List β :=
  (getlines fTimes).foldl
    (fun (out : List (List Char) × List β) (s : List Char) =>
      if s ≠ [] then
        (out.1 ++ [strImagePath ++ "/".toList ++ s ++ ".png".toList],
          out.2 ++ [D.div1e9 (valueAfterExtract D s)])
      else out)
    ([], [])

/-- Token loop of `LoadImus`, lines 215-222:
`while (ss >> tmpd) { data[cnt] = tmpd; cnt++; if (cnt == 7) break;
if (ss.peek() == ',' || ss.peek() == ' ') ss.ignore(); }`.
The first argument is the number of array slots still to fill, `7 - cnt`; the
result is the final `cnt` and `data`. -/
def readFields (D : DoubleOps β) : Nat → List Char → Nat → (Nat → β) → Nat × (Nat → β)
  | 0, _, cnt, data => (cnt, data)
  | slots + 1, ss, cnt, data =>
    match D.extract ss with
    | none => (cnt, data)
    | some (tmpd, ss1) =>
      let data1 : Nat → β := fun i => if i = cnt then tmpd else data i
      if cnt + 1 = 7 then (cnt + 1, data1)
      else
        let ss2 :=
          match ss1 with
          | c :: r => if c = ',' ∨ c = ' ' then r else ss1
          | [] => ss1
        readFields D slots ss2 (cnt + 1) data1

/-- Body of the loop of `LoadImus`, lines 205-227, for one string `s` read by
`getline`.  An empty `s` and an `s` whose first character is outside `'0'..'9'`
leave `vImus` unchanged; otherwise the token loop runs on a stream holding `s`
and one sample is appended, built from `data[1..6]` and `data[0] * 1e-9`.
`indeterminate i` is the content of `data[i]` before the token loop: the array is
declared without an initialiser. -/
def loadImuLine (D : DoubleOps β) (indeterminate : Nat → β)
    (vImus : List (IMUData β)) (s : List Char) : List (IMUData β) :=
  match s with
  | [] => vImus
  | c :: _ =>
    if c < '0' ∨ c > '9' then vImus
    else
      let data := (readFields D 7 s 0 indeterminate).2
      vImus ++ [⟨(data 1, data 2, data 3), (data 4, data 5, data 6), D.mul1em9 (data 0)⟩]

/-- The loader `LoadImus`, lines 196-229, on a file with content `fImus`.
`indeterminate k i` is the content of `data[i]` before the token loop of the line
that yields the sample number `k`. -/
def LoadImus (D : DoubleOps β) (indeterminate : Nat → Nat → β) (fImus : List Char) :
    List (IMUData β) :=
  (getlines fImus).foldl
    (fun vImus s => loadImuLine D (indeterminate vImus.length) vImus s) []

/-! ### Specification of the inertial log -/

/-- Whether a line starts with a character in `'0'..'9'`. -/
def digitLed (s : List Char) : Bool :=
  match s with
  | [] => false
  | c :: _ => decide ('0' ≤ c ∧ c ≤ '9')

/-- The numeric fields of a line as `LoadImus` reads them, at most `n` of them: each
field is what the extraction reads next, and one separator (a comma or a space)
standing right after a field is dropped before the next field is read. -/
def fields (D : DoubleOps β) : Nat → List Char → List β
  | 0, _ => []
  | n + 1, ss =>
    match D.extract ss with
    | none => []
    | some (v, ss1) =>
      v :: fields D n
        (match ss1 with
          | c :: r => if c = ',' ∨ c = ' ' then r else ss1
          | [] => ss1)

/-- The sample the spec builds from the fields `[time, wx, wy, wz, ax, ay, az]` of a
line: the time is multiplied by `1e-9`. -/
def sampleOfFields [Inhabited β] (D : DoubleOps β) (f : List β) : IMUData β :=
  ⟨(f.getI 1, f.getI 2, f.getI 3), (f.getI 4, f.getI 5, f.getI 6), D.mul1em9 (f.getI 0)⟩

end Loaders

/-! ## The rest of `main`: frame limit, target interval, statistics, exit code -/

/-- Lines 65 and 72-73: `int nImages = vstrImageFilenames.size();` and, when a
seventh argument is given, `nImages = atoi(argv[6]);`.  `argv6` is the value `atoi`
returns for that argument, `none` when there is no such argument. -/
def nImages (loaded : Nat) (argv6 : Option Int) : Int :=
  match argv6 with
  | none => loaded
  | some limit => limit

/-- Target interval, lines 166-170: `double T=0; if(ni<nImages-1) T =
vTimestamps[ni+1]-tframe; else if(ni>0) T = tframe-vTimestamps[ni-1];`. -/
def targetInterval {α : Type} [Sub α] [Zero α] (vTimestamps : List α) (nImages : Int)
    (ni : Nat) (tframe : α) : Read α :=
  if (ni : Int) < nImages - 1 then
    match vTimestamps[ni + 1]? with
    | some t => .val (t - tframe)
    | none => .pastEnd (ni + 1)
  else if ni > 0 then
    match vTimestamps[ni - 1]? with
    | some t => .val (tframe - t)
    | none => .pastEnd (ni - 1)
  else .val 0

/-- The vector `vTimesTrack` at the end of the replay loop: `resize(nImages)` fills
it with zeros (line 82) and every iteration that calls the engine stores the
measured duration, `vTimesTrack[ni]=ttrack` (line 163).  `ttrack ni` is the duration
measured for frame `ni`; the narrowing to `float` is not modelled. -/
def vTimesTrack {α : Type} (nImages : Nat) (ttrack : Nat → ℚ) (delivered : List (Delivery α)) :
    List ℚ :=
  delivered.foldl (fun v d => v.set d.ni (ttrack d.ni)) (List.replicate nImages 0)

/-- The two figures printed at the end of the run. -/
structure Statistics where
  median : ℚ
  mean : ℚ
deriving DecidableEq, Repr

/-- End-of-run statistics, lines 180-188: `sort`, the loop
`for(ni=0; ni<nImages; ni++) totaltime+=vTimesTrack[ni];`, the median
`vTimesTrack[nImages/2]` and the mean `totaltime/nImages`.  The vector has
`nImages` entries when this point is reached, so only the median can be read past
the end. -/
def statistics (vTimesTrack : List ℚ) (nImages : Int) : Read Statistics :=
  let sorted := vTimesTrack.insertionSort (· ≤ ·)
  let totaltime := (sorted.take nImages.toNat).foldl (fun acc x => acc + x) 0
  match sorted[(nImages.tdiv 2).toNat]? with
  | none => .pastEnd (nImages.tdiv 2).toNat
  | some median => .val ⟨median, totaltime / nImages⟩

/-- How `main` ends. -/
inductive Outcome where
  /-- `return code` -/
  | returned (code : Int)
  /-- a read of `v` at `index`, at or beyond its size, in the replay part -/
  | pastEnd (v : Vec) (index : Nat)
  /-- `vTimesTrack.resize(nImages)` with a negative `nImages`: the size converts to a
  value above `max_size()`, `resize` throws `std::length_error`, nothing catches it -/
  | lengthError
  /-- the median `vTimesTrack[nImages/2]` read at `index`, at or beyond the size -/
  | medianPastEnd (index : Nat)
deriving DecidableEq, Repr

/-- What a run of `main` does: the calls made to the engine, how it ends, and the
statistics it prints when it gets that far. -/
structure MainRun (α : Type) where
  delivered : List (Delivery α)
  outcome : Outcome
  reported : Option Statistics
deriving DecidableEq, Repr

/-- The function `main` from the two loads on, lines 53-193, on the vectors the
loaders produced.  `argv6` is the frame limit (see `nImages`), `imEmpty` tells
which image files decode to an empty image, `ttrack ni` is the processing duration
measured for frame `ni`. -/
def main {α : Type} [LinearOrder α] (vImus : List (IMUData α))
    (vstrImageFilenames : List (List Char)) (vTimestamps : List α) (argv6 : Option Int)
    (imEmpty : List Char → Bool) (ttrack : Nat → ℚ) : MainRun α :=
  if vImus.length = 0 then ⟨[], .returned 1, none⟩
  else if vstrImageFilenames.length = 0 then ⟨[], .returned 1, none⟩
  else if nImages vstrImageFilenames.length argv6 < 0 then ⟨[], .lengthError, none⟩
  else
    match (replay vImus vstrImageFilenames vTimestamps imEmpty
        (nImages vstrImageFilenames.length argv6)).ending with
    | .imageEmpty _ _ =>
      ⟨(replay vImus vstrImageFilenames vTimestamps imEmpty
        (nImages vstrImageFilenames.length argv6)).delivered, .returned 1, none⟩
    | .pastEnd v index =>
      ⟨(replay vImus vstrImageFilenames vTimestamps imEmpty
        (nImages vstrImageFilenames.length argv6)).delivered, .pastEnd v index, none⟩
    | .completed _ =>
      match statistics
          (vTimesTrack (nImages vstrImageFilenames.length argv6).toNat ttrack
            (replay vImus vstrImageFilenames vTimestamps imEmpty
              (nImages vstrImageFilenames.length argv6)).delivered)
          (nImages vstrImageFilenames.length argv6) with
      | .pastEnd index =>
        ⟨(replay vImus vstrImageFilenames vTimestamps imEmpty
          (nImages vstrImageFilenames.length argv6)).delivered, .medianPastEnd index, none⟩
      | .val stats =>
        ⟨(replay vImus vstrImageFilenames vTimestamps imEmpty
          (nImages vstrImageFilenames.length argv6)).delivered, .returned 0, some stats⟩

/-! ### Pacing -/

/-- What the pacer does after a frame. -/
inductive Idle where
  /-- `usleep` is not called -/
  | noSleep
  /-- `usleep(usec)` -/
  | usleep (usec : Nat)
  /-- the value does not fit the argument type of `usleep`: the conversion of the
  `double` has no defined result -/
  | outOfRange
deriving DecidableEq, Repr

/-- Lines 172-173: `if(ttrack<T) usleep((T-ttrack)*1e6);`.  `T` and `ttrack` are the
values of the two `double` variables.  The difference and its product by `1e6` are
`double` operations, each rounded (`roundDouble`).  The argument of `usleep` is an
unsigned integer of `usecBits` bits (`useconds_t`, declared by the system headers: 32
bits on Linux); the conversion from `double` drops the fraction and is defined only
for a value that fits. -/
def idle (usecBits : Nat) (T ttrack : ℚ) : Idle :=
  if ttrack < T then
    if Int.floor (roundDouble (roundDouble (T - ttrack) * 10 ^ 6)) < 2 ^ usecBits then
      .usleep (Int.floor (roundDouble (roundDouble (T - ttrack) * 10 ^ 6))).toNat
    else .outOfRange
  else .noSleep

/-! ### Rolling throughput -/

/-- The two `uint32_t` variables of the benchmark window, lines 103-104. -/
structure Bench where
  mBenchTime : Nat
  mCurrFrame : Nat
deriving DecidableEq, Repr

/-- A line printed by the benchmark: frames, seconds, frames per second. -/
structure Report where
  frames : Nat
  seconds : Nat
  fps : ℚ
deriving DecidableEq, Repr

/-- The benchmark code run after each frame, lines 144-159.  `ms` is the value of
`tv.tv_sec * 1000 + tv.tv_usec / 1000`; `time`, `mCurrFrame` and the difference
`time - mBenchTime` are `uint32_t`, so they are taken modulo `2^32`. -/
def benchStep (b : Bench) (ms : Nat) : Bench × Option Report :=
  let time := ms % 2 ^ 32
  let mCurrFrame := (b.mCurrFrame + 1) % 2 ^ 32
  let mBenchTime := if mCurrFrame = 0 then time else b.mBenchTime
  if (time + 2 ^ 32 - mBenchTime) % 2 ^ 32 > 5 * 1000 then
    (⟨time, 0⟩, some ⟨mCurrFrame, 5, (mCurrFrame : ℚ) / 5⟩)
  else (⟨mBenchTime, mCurrFrame⟩, none)

/-- The benchmark over the clock readings of the successive frames, from the state
in which `main` enters the loop (`mBenchTime = 0`, `mCurrFrame = 0`): what is
printed after each frame. -/
def benchRun : Bench → List Nat → List (Option Report)
  | _, [] => []
  | b, ms :: rest => (benchStep b ms).2 :: benchRun (benchStep b ms).1 rest

/-! ### Separators of the inertial log -/

/-- A comma or a white-space character. -/
def isSep (c : Char) : Bool := c = ',' || isspace c

/-- The separators between two fields that the token loop of `LoadImus` gets past:
one comma or one space followed by any white space, or white space alone. -/
def sepOk (sep : List Char) : Bool :=
  match sep with
  | [] => false
  | c :: r => if c = ',' ∨ c = ' ' then r.all isspace else (c :: r).all isspace

/-- The extraction reads the numeric token `tok` as the value `v`: after any leading
white space, and when the token is followed by the end of the text, a comma or
white space, `ss >> tmpd` yields `v` and leaves what follows the token unread. -/
def ReadsToken {β : Type} (D : DoubleOps β) (tok : List Char) (v : β) : Prop :=
  ∀ ws rest : List Char, ws.all isspace = true →
    (∀ c r, rest = c :: r → isSep c = true) →
    D.extract (ws ++ tok ++ rest) = some (v, rest)

/-- The text of a row of tokens, each followed by its separator, and then `tail`.
An entry holds the token, its value and the separator after it. -/
def renderRow {β : Type} : List (List Char × β × List Char) → List Char → List Char
  | [], tail => tail
  | (tok, _, sep) :: row, tail => tok ++ sep ++ renderRow row tail

/-! ## Properties of the stream aligner -/

theorem batches_nil {α : Type} : batches ([] : List (Delivery α)) = [] := rfl

theorem batches_cons {α : Type} (d : Delivery α) (ds : List (Delivery α)) :
    batches (d :: ds) = d.vimu ++ batches ds := by
  simp [batches]

theorem batches_append {α : Type} (ds es : List (Delivery α)) :
    batches (ds ++ es) = batches ds ++ batches es := by
  simp [batches]

theorem cursorAfter_append {α : Type} (c : Nat) (ds es : List (Delivery α)) :
    cursorAfter c (ds ++ es) = cursorAfter (cursorAfter c ds) es := by
  induction ds generalizing c with
  | nil => rfl
  | cons d ds ih => simpa [cursorAfter] using ih d.imuindex

section AlignerLemmas

variable {α : Type} [LinearOrder α]

/-- The start-frame search in closed form: it stops at the first entry that is at
least `startimutime`, and reads past the end when there is none. -/
theorem imageStartSearch_eq (t0 : α) (l : List α) (i : Nat) :
    imageStartSearch t0 l i =
      if l.findIdx (fun t => decide (t0 ≤ t)) < l.length then
        .val (i + l.findIdx (fun t => decide (t0 ≤ t)))
      else .pastEnd (i + l.length) := by
  induction l generalizing i with
  | nil => simp [imageStartSearch]
  | cons t rest ih =>
    by_cases h : t0 ≤ t
    · simp [imageStartSearch, List.findIdx_cons, h]
    · simp only [imageStartSearch, List.findIdx_cons, h, if_false, ih, decide_False,
        cond_false, List.length_cons, Nat.add_lt_add_iff_right]
      split <;> simp <;> omega

/-- The batch loop in closed form: the batch is the longest run of samples ahead of
the cursor with timestamp below `tframe`; the loop reads past the end when that
run reaches the end of the samples. -/
theorem collectBatch_eq (tf : α) (l : List (IMUData α)) (i : Nat) (vimu : List (IMUData α)) :
    collectBatch tf l i vimu =
      if (l.takeWhile (fun x => decide (x._t < tf))).length < l.length then
        .val (vimu ++ l.takeWhile (fun x => decide (x._t < tf)),
          i + (l.takeWhile (fun x => decide (x._t < tf))).length)
      else .pastEnd (i + l.length) := by
  induction l generalizing i vimu with
  | nil => simp [collectBatch]
  | cons x rest ih =>
    by_cases h : tf ≤ x._t
    · simp [collectBatch, List.takeWhile_cons, h, not_lt.mpr h]
    · have h2 : x._t < tf := not_le.mp h
      simp only [collectBatch, ge_iff_le, h, if_false, ih, List.takeWhile_cons, h2, decide_True,
        List.length_cons, Nat.add_lt_add_iff_right, List.append_assoc, List.singleton_append]
      by_cases h3 : (List.takeWhile (fun x => decide (x._t < tf)) rest).length < rest.length
      · simp [h3]; omega
      · simp [h3]; omega

/-- Every run of the replay loop appends deliveries that meet `Steps`, and a run
that completes ends with the cursor left by the last of them. -/
theorem replayLoop_spec (vImus : List (IMUData α)) (files : List (List Char))
    (vTimestamps : List α) (imEmpty : List Char → Bool) (nImages : Int)
    (remaining ni c : Nat) (delivered : List (Delivery α)) :
    ∃ news : List (Delivery α),
      (replayLoop vImus files vTimestamps imEmpty nImages remaining ni c delivered).delivered
        = delivered ++ news ∧
      Steps vImus vTimestamps ni c news ∧
      ∀ c1, (replayLoop vImus files vTimestamps imEmpty nImages remaining ni c delivered).ending
        = .completed c1 → c1 = cursorAfter c news := by
  induction remaining generalizing ni c delivered with
  | zero => exact ⟨[], by simp [replayLoop, Steps, cursorAfter]⟩
  | succ n ih =>
    unfold replayLoop
    cases hf : files[ni]? with
    | none => exact ⟨[], by simp [Steps]⟩
    | some file =>
      cases ht : vTimestamps[ni]? with
      | none => exact ⟨[], by simp [Steps]⟩
      | some tframe =>
        simp only []
        rw [collectBatch_eq]
        by_cases hlen : (List.takeWhile (fun x => decide (x._t < tframe)) (List.drop c vImus)).length
            < (List.drop c vImus).length
        · simp only [hlen, if_true, List.nil_append]
          by_cases hempty : imEmpty file = true
          · rw [if_pos hempty]
            exact ⟨[], by simp [Steps]⟩
          · rw [if_neg hempty]
            generalize hvimu : List.takeWhile (fun x => decide (x._t < tframe)) (List.drop c vImus)
              = vimu at hlen ⊢
            have hd : Steps vImus vTimestamps ni c [⟨ni, vimu, tframe, c + vimu.length⟩] := by
              simp only [Steps, ht, and_true, true_and, hvimu]
              simp only [List.length_drop] at hlen
              omega
            split
            · exact ⟨_, rfl, hd, by simp⟩
            · obtain ⟨news, h1, h2, h3⟩ := ih (ni + 1) (c + vimu.length)
                (delivered ++ [⟨ni, vimu, tframe, c + vimu.length⟩])
              refine ⟨⟨ni, vimu, tframe, c + vimu.length⟩ :: news, ?_, ?_, ?_⟩
              · rw [h1]; simp
              · simp only [Steps, ht, and_true, true_and, hvimu] at hd ⊢
                exact ⟨hd, h2⟩
              · intro c1 hc1
                simpa [cursorAfter] using h3 c1 hc1
        · simp only [hlen, if_false]
          exact ⟨[], by simp [Steps]⟩

/-- A run of `takeWhile` is the initial segment of its own length. -/
theorem takeWhile_eq_take {γ : Type} (p : γ → Bool) (l : List γ) :
    l.takeWhile p = l.take (l.takeWhile p).length := by
  induction l with
  | nil => rfl
  | cons x rest ih =>
    by_cases h : p x = true
    · simp only [List.takeWhile_cons, h, if_true, List.length_cons, List.take_succ_cons]
      rw [← ih]
    · simp [List.takeWhile_cons, h]

/-- Deliveries that meet `Steps` split at any point into deliveries that meet it. -/
theorem Steps_append (vImus : List (IMUData α)) (vTimestamps : List α) (ni c : Nat)
    (ds es : List (Delivery α)) :
    Steps vImus vTimestamps ni c (ds ++ es) ↔
      Steps vImus vTimestamps ni c ds ∧
        Steps vImus vTimestamps (ni + ds.length) (cursorAfter c ds) es := by
  induction ds generalizing ni c with
  | nil => simp [Steps, cursorAfter]
  | cons d ds ih =>
    have h := ih (ni + 1) d.imuindex
    have e : ni + (ds.length + 1) = ni + 1 + ds.length := by omega
    simp only [List.cons_append, Steps, cursorAfter, List.length_cons, e]
    tauto

/-- The batches of deliveries that meet `Steps` are the samples between the cursor
they start from and the cursor they leave. -/
theorem Steps_batches (vImus : List (IMUData α)) (vTimestamps : List α) (ni c : Nat)
    (ds : List (Delivery α)) (h : Steps vImus vTimestamps ni c ds) :
    c ≤ cursorAfter c ds ∧ (ds ≠ [] → cursorAfter c ds < vImus.length) ∧
      vImus.take c ++ batches ds = vImus.take (cursorAfter c ds) := by
  induction ds generalizing ni c with
  | nil => simp [cursorAfter, batches]
  | cons d ds ih =>
    obtain ⟨-, -, hv, hc, hlt, hrest⟩ := h
    obtain ⟨h1, h2, h3⟩ := ih (ni + 1) d.imuindex hrest
    refine ⟨?_, ?_, ?_⟩
    · simp only [cursorAfter]; omega
    · intro _
      simp only [cursorAfter]
      by_cases hds : ds = []
      · subst hds; simpa [cursorAfter] using hlt
      · exact h2 hds
    · simp only [cursorAfter, batches_cons]
      rw [← h3, ← List.append_assoc]
      congr 1
      rw [hc, List.take_add]
      congr 1
      rw [hv]
      exact takeWhile_eq_take _ _

/-- The deliveries of `replay` meet `Steps` from some start frame with the cursor
at 0, and a completed replay ends on the cursor they leave. -/
theorem replay_spec (vImus : List (IMUData α)) (files : List (List Char))
    (vTimestamps : List α) (imEmpty : List Char → Bool) (nImages : Int) :
    ∃ ni, Steps vImus vTimestamps ni 0 (replay vImus files vTimestamps imEmpty nImages).delivered ∧
      ∀ c1, (replay vImus files vTimestamps imEmpty nImages).ending = .completed c1 →
        c1 = cursorAfter 0 (replay vImus files vTimestamps imEmpty nImages).delivered := by
  unfold replay
  cases vImus with
  | nil => exact ⟨0, by simp [Steps]⟩
  | cons imu0 rest =>
    simp only []
    cases imageStartSearch imu0._t vTimestamps 0 with
    | pastEnd index => exact ⟨0, by simp [Steps]⟩
    | val imagestart =>
      obtain ⟨news, h1, h2, h3⟩ := replayLoop_spec (imu0 :: rest) files vTimestamps imEmpty
        nImages (nImages - imagestart).toNat imagestart 0 []
      simp only [List.nil_append] at h1
      exact ⟨imagestart, by simp only [h1]; exact h2, by simp only [h1]; exact h3⟩

/-- What `Steps` says about the delivery at position `k`. -/
theorem Steps_at (vImus : List (IMUData α)) (vTimestamps : List α) (ni c : Nat)
    (ds : List (Delivery α)) (h : Steps vImus vTimestamps ni c ds) (k : Nat) (d : Delivery α)
    (hk : ds[k]? = some d) :
    Steps vImus vTimestamps ni c (ds.take k) ∧ Steps vImus vTimestamps ni c (ds.take (k + 1)) ∧
      cursorAfter c (ds.take (k + 1)) = d.imuindex ∧
      d.ni = ni + k ∧ vTimestamps[d.ni]? = some d.tframe ∧
      d.vimu = (vImus.drop (cursorAfter c (ds.take k))).takeWhile
        (fun x => decide (x._t < d.tframe)) ∧
      d.imuindex < vImus.length := by
  obtain ⟨hlt, hd⟩ := List.getElem?_eq_some.mp hk
  have hsplit : ds = ds.take k ++ d :: ds.drop (k + 1) := by
    rw [← hd, ← List.drop_eq_getElem_cons hlt, List.take_append_drop]
  have hlen : (ds.take k).length = k := by
    rw [List.length_take]; omega
  have h1 := h
  rw [hsplit, Steps_append, hlen] at h1
  obtain ⟨ht, hni, hts, hv, -, hlt2, -⟩ := h1
  have htake : ds.take (k + 1) = ds.take k ++ [d] := by
    rw [List.take_succ, hk]; rfl
  refine ⟨ht, ?_, ?_, hni, ?_, hv, hlt2⟩
  · have h2 := h
    rw [← List.take_append_drop (k + 1) ds, Steps_append] at h2
    exact h2.1
  · rw [htake, cursorAfter_append]; rfl
  · rw [hni]; exact hts

/-- Under `Steps` no delivery lowers the cursor. -/
theorem Steps_cursor_sorted (vImus : List (IMUData α)) (vTimestamps : List α) (ni c : Nat)
    (ds : List (Delivery α)) (h : Steps vImus vTimestamps ni c ds) :
    (∀ d ∈ ds, c ≤ d.imuindex) ∧ (ds.map (fun d => d.imuindex)).Pairwise (· ≤ ·) := by
  induction ds generalizing ni c with
  | nil => simp
  | cons d ds ih =>
    obtain ⟨-, -, -, hc, -, hrest⟩ := h
    obtain ⟨h1, h2⟩ := ih (ni + 1) d.imuindex hrest
    refine ⟨?_, ?_⟩
    · intro e he
      rcases List.mem_cons.mp he with rfl | he
      · omega
      · have := h1 e he; omega
    · simp only [List.map_cons, List.pairwise_cons, List.mem_map]
      refine ⟨?_, h2⟩
      rintro a ⟨e, he, rfl⟩
      exact h1 e he

/-! ### C1: start-frame search -/

/-- C1. When some frame has a timestamp at least `t0`, the timestamp of the first
inertial sample, the start index computed by `main` is the smallest index whose
frame timestamp is at least `t0`: the search returns an index `s` inside the
frame sequence with `t0 ≤ vTimestamps[s]`, every frame before `s` has a timestamp
below `t0`, the replay loop starts at `s`, and no frame before `s` is delivered.
(The frame timestamps need not be increasing for this.) -/
theorem startIndex_smallest (imu0 : IMUData α) (rest : List (IMUData α))
    (files : List (List Char)) (vTimestamps : List α) (imEmpty : List Char → Bool)
    (nImages : Int) (hex : ∃ t ∈ vTimestamps, imu0._t ≤ t) :
    ∃ s, imageStartSearch imu0._t vTimestamps 0 = .val s ∧
      (∃ t, vTimestamps[s]? = some t ∧ imu0._t ≤ t) ∧
      (∀ j t, j < s → vTimestamps[j]? = some t → t < imu0._t) ∧
      replay (imu0 :: rest) files vTimestamps imEmpty nImages =
        replayLoop (imu0 :: rest) files vTimestamps imEmpty nImages
          (nImages - s).toNat s 0 [] ∧
      ∀ d ∈ (replay (imu0 :: rest) files vTimestamps imEmpty nImages).delivered, s ≤ d.ni := by
  have hex2 : ∃ t ∈ vTimestamps, (fun t => decide (imu0._t ≤ t)) t = true := by
    obtain ⟨t, ht, hle⟩ := hex
    exact ⟨t, ht, by simpa using hle⟩
  have hlt := List.findIdx_lt_length_of_exists hex2
  have hsearch : imageStartSearch imu0._t vTimestamps 0
      = .val (vTimestamps.findIdx (fun t => decide (imu0._t ≤ t))) := by
    rw [imageStartSearch_eq, if_pos hlt, Nat.zero_add]
  refine ⟨_, hsearch, ?_, ?_, ?_, ?_⟩
  · refine ⟨vTimestamps[vTimestamps.findIdx (fun t => decide (imu0._t ≤ t))], ?_, ?_⟩
    · exact List.getElem?_eq_getElem hlt
    · have := @List.findIdx_getElem _ (fun t => decide (imu0._t ≤ t)) vTimestamps hlt
      simpa using this
  · intro j t hj hjt
    obtain ⟨hjl, hjv⟩ := List.getElem?_eq_some.mp hjt
    have := List.not_of_lt_findIdx hj
    rw [hjv] at this
    simpa using this
  · simp only [replay, hsearch]
  · intro d hd
    simp only [replay, hsearch] at hd
    obtain ⟨news, h1, h2, -⟩ := replayLoop_spec (imu0 :: rest) files vTimestamps imEmpty nImages
      (nImages - (vTimestamps.findIdx (fun t => decide (imu0._t ≤ t)) : Nat)).toNat
      (vTimestamps.findIdx (fun t => decide (imu0._t ≤ t))) 0 []
    rw [h1, List.nil_append] at hd
    obtain ⟨k, hk⟩ := List.mem_iff_getElem?.mp hd
    have := (Steps_at _ _ _ _ _ h2 k d hk).2.2.2.1
    omega

/-- C1, at a concrete input: samples starting at time 5 and frames at 1, 3, 5
give the start index 2. -/
theorem startIndex_smallest_witness :
    (∃ t ∈ [(1 : ℚ), 3, 5], (sampleAt 5)._t ≤ t) ∧
    imageStartSearch (sampleAt 5)._t [(1 : ℚ), 3, 5] 0 = .val 2 ∧
    ∃ s, imageStartSearch (sampleAt 5)._t [(1 : ℚ), 3, 5] 0 = .val s ∧
      (∃ t, [(1 : ℚ), 3, 5][s]? = some t ∧ (sampleAt 5)._t ≤ t) ∧
      (∀ j t, j < s → [(1 : ℚ), 3, 5][j]? = some t → t < (sampleAt 5)._t) ∧
      replay (sampleAt 5 :: [sampleAt 9]) scenarioFiles [(1 : ℚ), 3, 5] (fun _ => false) 3 =
        replayLoop (sampleAt 5 :: [sampleAt 9]) scenarioFiles [(1 : ℚ), 3, 5] (fun _ => false) 3
          ((3 : Int) - s).toNat s 0 [] ∧
      ∀ d ∈ (replay (sampleAt 5 :: [sampleAt 9]) scenarioFiles [(1 : ℚ), 3, 5]
        (fun _ => false) 3).delivered, s ≤ d.ni :=
  ⟨⟨5, by simp, by simp [sampleAt]⟩, by decide,
    startIndex_smallest (sampleAt 5) [sampleAt 9] scenarioFiles [(1 : ℚ), 3, 5]
      (fun _ => false) 3 ⟨5, by simp, by simp [sampleAt]⟩⟩

/-! ### C2: per-frame batching rule -/

/-- The batching rule where the loop stops inside the samples: when some sample at
or after the cursor has a timestamp at least `tframe`, the batch is the longest run
of samples from the cursor with timestamp below `tframe`, and the cursor moves by
the length of the batch. -/
theorem collectBatch_of_stop (vImus : List (IMUData α)) (tframe : α) (imuindex : Nat)
    (hstop : ∃ x ∈ vImus.drop imuindex, tframe ≤ x._t) :
    collectBatch tframe (vImus.drop imuindex) imuindex [] =
      .val ((vImus.drop imuindex).takeWhile (fun x => decide (x._t < tframe)),
        imuindex + ((vImus.drop imuindex).takeWhile (fun x => decide (x._t < tframe))).length) := by
  rw [collectBatch_eq, if_pos, List.nil_append]
  obtain ⟨x, hx, hle⟩ := hstop
  by_contra hge
  have hall : (vImus.drop imuindex).takeWhile (fun x => decide (x._t < tframe))
      = vImus.drop imuindex := by
    have h1 := takeWhile_eq_take (fun x => decide (x._t < tframe)) (vImus.drop imuindex)
    rw [h1, List.take_of_length_le (not_lt.mp hge)]
  have hx2 : x ∈ (vImus.drop imuindex).takeWhile (fun x => decide (x._t < tframe)) := by
    rw [hall]; exact hx
  have := List.mem_takeWhile_imp hx2
  simp only [decide_eq_true_eq] at this
  exact absurd hle (not_le.mpr this)

/-- The batch loop reads past the end exactly when every sample from the cursor on
has a timestamp below `tframe`; the index it then reads is the number of samples. -/
theorem collectBatch_pastEnd (vImus : List (IMUData α)) (tframe : α) (imuindex : Nat)
    (hle : imuindex ≤ vImus.length) (hall : ∀ x ∈ vImus.drop imuindex, x._t < tframe) :
    collectBatch tframe (vImus.drop imuindex) imuindex [] = .pastEnd vImus.length := by
  rw [collectBatch_eq, if_neg]
  · rw [List.length_drop]; congr 1; omega
  · have : (vImus.drop imuindex).takeWhile (fun x => decide (x._t < tframe))
        = vImus.drop imuindex := by
      rw [List.takeWhile_eq_self_iff]
      intro x hx
      simpa using hall x hx
    rw [this]; exact lt_irrefl _

/-- C2, at the failing input: one sample at time 1, the cursor at 0 and a frame at
time 2.  The claim gives the batch `[sample]` and the cursor 1; the loop takes
the sample and then reads `vImus[1]`, past the end of the one-element vector.
With the cursor already at 1 the claim gives the empty batch; the loop reads
`vImus[1]` at once. -/
theorem collectBatch_reads_past_end :
    collectBatch (2 : ℚ) ([sampleAt 1].drop 0) 0 [] = .pastEnd 1 ∧
    collectBatch (2 : ℚ) ([sampleAt 1].drop 1) 1 [] = .pastEnd 1 := by
  decide

/-! ### C3: partition completeness -/

/-- When the replay loop ends on the empty image of frame `k`, the batch loop of
frame `k` has already run: the final cursor is the cursor left by the deliveries
plus the length of the batch gathered for frame `k`. -/
theorem replayLoop_imageEmpty (vImus : List (IMUData α)) (files : List (List Char))
    (vTimestamps : List α) (imEmpty : List Char → Bool) (nImages : Int)
    (remaining ni c : Nat) (delivered : List (Delivery α)) (k c1 : Nat)
    (h : (replayLoop vImus files vTimestamps imEmpty nImages remaining ni c delivered).ending
      = .imageEmpty k c1) :
    ∃ (news : List (Delivery α)) (tframe : α),
      (replayLoop vImus files vTimestamps imEmpty nImages remaining ni c delivered).delivered
        = delivered ++ news ∧
      vTimestamps[k]? = some tframe ∧
      c1 = cursorAfter c news + ((vImus.drop (cursorAfter c news)).takeWhile
        (fun x => decide (x._t < tframe))).length ∧
      c1 < vImus.length := by
  induction remaining generalizing ni c delivered with
  | zero => simp [replayLoop] at h
  | succ n ih =>
    unfold replayLoop at h ⊢
    cases hf : files[ni]? with
    | none => simp [hf] at h
    | some file =>
      cases ht : vTimestamps[ni]? with
      | none => simp [hf, ht] at h
      | some tframe =>
        simp only [hf, ht] at h ⊢
        rw [collectBatch_eq] at h ⊢
        by_cases hlen : (List.takeWhile (fun x => decide (x._t < tframe)) (List.drop c vImus)).length
            < (List.drop c vImus).length
        · simp only [hlen, if_true, List.nil_append] at h ⊢
          by_cases hempty : imEmpty file = true
          · rw [if_pos hempty] at h ⊢
            simp only [Ending.imageEmpty.injEq] at h
            obtain ⟨hk, hc⟩ := h
            subst hk
            refine ⟨[], tframe, by simp, ht, ?_, ?_⟩
            · simp only [cursorAfter]
              exact hc.symm
            · simp only [List.length_drop] at hlen
              omega
          · rw [if_neg hempty] at h ⊢
            split at h
            · simp at h
            · rename_i hno
              rw [if_neg hno]
              obtain ⟨news, tf, h1, h2, h3, h4⟩ := ih _ _ _ h
              refine ⟨⟨ni, List.takeWhile (fun x => decide (x._t < tframe)) (List.drop c vImus),
                tframe, c + (List.takeWhile (fun x => decide (x._t < tframe))
                  (List.drop c vImus)).length⟩ :: news, tf, ?_, h2, ?_, h4⟩
              · rw [h1]; simp
              · simpa [cursorAfter] using h3
        · simp only [hlen, if_false] at h
          simp at h

/-- The same for `replay`, where the cursor starts at 0. -/
theorem replay_imageEmpty (vImus : List (IMUData α)) (files : List (List Char))
    (vTimestamps : List α) (imEmpty : List Char → Bool) (nImages : Int) (k c1 : Nat)
    (h : (replay vImus files vTimestamps imEmpty nImages).ending = .imageEmpty k c1) :
    ∃ tframe : α, vTimestamps[k]? = some tframe ∧
      c1 = cursorAfter 0 (replay vImus files vTimestamps imEmpty nImages).delivered +
        ((vImus.drop (cursorAfter 0 (replay vImus files vTimestamps imEmpty nImages).delivered)
          ).takeWhile (fun x => decide (x._t < tframe))).length ∧
      c1 < vImus.length := by
  unfold replay at h ⊢
  cases vImus with
  | nil => simp at h
  | cons imu0 rest =>
    simp only [] at h ⊢
    cases hs : imageStartSearch imu0._t vTimestamps 0 with
    | pastEnd index => simp [hs] at h
    | val imagestart =>
      simp only [hs] at h ⊢
      obtain ⟨news, tf, h1, h2, h3, h4⟩ := replayLoop_imageEmpty _ _ _ _ _ _ _ _ _ _ _ h
      simp only [List.nil_append] at h1
      exact ⟨tf, h2, by rw [h1]; exact h3, h4⟩

/-- C3 as stated fails on a run that ends on an empty image.  Samples at 0, 1, 2, 3
and frames at 1, 2, 3, the image of frame 1 being empty: frame 0 is delivered with
the batch `[0]`; for frame 1 the batch loop runs before the test `im.empty()` and
moves the cursor over the sample at 1, then `main` returns 1.  The final cursor is
2, but the batches delivered are the first sample only, not the first two: the
sample at 1 was taken from the sequence and never delivered. -/
theorem partition_counterexample :
    replay tieImus scenarioFiles [(1 : ℚ), 2, 3] (fun f => decide (f = "f1.png".toList)) 3 =
      ⟨[⟨0, [sampleAt 0], 1, 1⟩], .imageEmpty 1 2⟩ ∧
    batches [(⟨0, [sampleAt 0], 1, 1⟩ : Delivery ℚ)] = [sampleAt 0] ∧
    tieImus.take 2 = [sampleAt 0, sampleAt 1] ∧
    batches [(⟨0, [sampleAt 0], 1, 1⟩ : Delivery ℚ)] ≠ tieImus.take 2 := by
  decide

/-- C3, amended.  For every input: (1) the batches delivered up to and including any
delivery are exactly the first `imuindex` samples, where `imuindex` is the cursor at
that delivery, so the batches of the whole run, concatenated in frame order, are
the prefix of the inertial sequence whose length is the cursor after the last
delivery; (2) a run that completes ends with that cursor as its final cursor;
(3) a run that ends on the empty image of frame `k` ends with a final cursor that
has moved further, over the samples ahead of it with timestamp below the timestamp
of frame `k`: these were gathered for frame `k` and are not delivered; (4) the
cursor never decreases from one delivery to the next.  So no sample is handed over
twice and none is skipped between two deliveries. -/
theorem partition_complete (vImus : List (IMUData α)) (files : List (List Char))
    (vTimestamps : List α) (imEmpty : List Char → Bool) (nImages : Int) :
    ((∀ k d, (replay vImus files vTimestamps imEmpty nImages).delivered[k]? = some d →
      batches ((replay vImus files vTimestamps imEmpty nImages).delivered.take (k + 1))
        = vImus.take d.imuindex ∧ d.imuindex ≤ vImus.length) ∧
      batches (replay vImus files vTimestamps imEmpty nImages).delivered =
        vImus.take (cursorAfter 0 (replay vImus files vTimestamps imEmpty nImages).delivered)) ∧
    (∀ c, (replay vImus files vTimestamps imEmpty nImages).ending = .completed c →
      c = cursorAfter 0 (replay vImus files vTimestamps imEmpty nImages).delivered ∧
      batches (replay vImus files vTimestamps imEmpty nImages).delivered = vImus.take c ∧
        c ≤ vImus.length) ∧
    (∀ k c, (replay vImus files vTimestamps imEmpty nImages).ending = .imageEmpty k c →
      ∃ tframe, vTimestamps[k]? = some tframe ∧
        vImus.take c = batches (replay vImus files vTimestamps imEmpty nImages).delivered ++
          (vImus.drop (cursorAfter 0 (replay vImus files vTimestamps imEmpty nImages).delivered)
            ).takeWhile (fun x => decide (x._t < tframe)) ∧
        cursorAfter 0 (replay vImus files vTimestamps imEmpty nImages).delivered ≤ c ∧
        c ≤ vImus.length) ∧
    ((replay vImus files vTimestamps imEmpty nImages).delivered.map
      (fun d => d.imuindex)).Pairwise (· ≤ ·) := by
  obtain ⟨ni, hsteps, hend⟩ := replay_spec vImus files vTimestamps imEmpty nImages
  obtain ⟨-, hb2, hb3⟩ := Steps_batches _ _ _ _ _ hsteps
  rw [List.take_zero, List.nil_append] at hb3
  refine ⟨⟨?_, hb3⟩, ?_, ?_, ?_⟩
  · intro k d hk
    obtain ⟨-, h2, h3, -, -, -, hlt⟩ := Steps_at _ _ _ _ _ hsteps k d hk
    have hb := (Steps_batches _ _ _ _ _ h2).2.2
    rw [h3, List.take_zero, List.nil_append] at hb
    exact ⟨hb, le_of_lt hlt⟩
  · intro c hc
    have hc1 := hend c hc
    refine ⟨hc1, by rw [hc1]; exact hb3, ?_⟩
    by_cases hnil : (replay vImus files vTimestamps imEmpty nImages).delivered = []
    · rw [hc1, hnil]; simp [cursorAfter]
    · rw [hc1]; exact le_of_lt (hb2 hnil)
  · intro k c hc
    obtain ⟨tframe, h1, h2, h3⟩ := replay_imageEmpty _ _ _ _ _ _ _ hc
    refine ⟨tframe, h1, ?_, by omega, le_of_lt h3⟩
    rw [hb3, h2, List.take_add]
    congr 1
    exact (takeWhile_eq_take _ _).symm
  · exact (Steps_cursor_sorted _ _ _ _ _ hsteps).2

/-! ### C4: batch completeness under the ordering invariant -/

/-- The start-frame search reads past the end exactly when every frame timestamp is
below `startimutime`; the index it then reads is the number of frames. -/
theorem imageStartSearch_pastEnd (startimutime : α) (vTimestamps : List α)
    (hall : ∀ t ∈ vTimestamps, t < startimutime) :
    imageStartSearch startimutime vTimestamps 0 = .pastEnd vTimestamps.length := by
  rw [imageStartSearch_eq, if_neg, Nat.zero_add]
  rw [List.findIdx_lt_length]
  rintro ⟨t, ht, hle⟩
  simp only [decide_eq_true_eq] at hle
  exact absurd (hall t ht) (not_lt.mpr hle)

/-- C6, at the failing input: the first inertial sample at time 10 and three frames
at 1, 2, 3.  The claim gives the start index 3 with no read past the end; the
search reads `vTimestamps[3]`, past the end of the three-element vector, and the
replay part of `main` has no defined outcome. -/
theorem startSearch_reads_past_end :
    imageStartSearch (sampleAt 10)._t [(1 : ℚ), 2, 3] 0 = .pastEnd 3 ∧
    replay [sampleAt 10] scenarioFiles [(1 : ℚ), 2, 3] (fun _ => false) 3 =
      ⟨[], .pastEnd .vTimestamps 3⟩ := by
  decide

/-! ### C7: running out of inertial samples -/

/-- C7, at the failing input: samples at 1 and 2 and frames at 3 and 4.  The claim
gives frame 0 the batch of both samples with the cursor at 2 and frame 1 an empty
batch; the batch loop of frame 0 takes both samples and then reads `vImus[2]`, past
the end of the two-element vector, so that nothing is delivered. -/
theorem exhaustion_reads_past_end :
    collectBatch (3 : ℚ) ([sampleAt 1, sampleAt 2].drop 0) 0 [] = .pastEnd 2 ∧
    replay [sampleAt 1, sampleAt 2] scenarioFiles [(3 : ℚ), 4] (fun _ => false) 2 =
      ⟨[], .pastEnd .vImus 2⟩ := by
  decide

end AlignerLemmas

/-! ## Properties of rounding to `double` -/

/-- An integer within less than a half of `s` is the nearest integer to `s`. -/
theorem roundHalfEven_eq_of_close (s : ℚ) (m : ℤ) (h1 : (m : ℚ) - 1 / 2 < s)
    (h2 : s < (m : ℚ) + 1 / 2) : roundHalfEven s = m := by
  unfold roundHalfEven
  by_cases hs : (m : ℚ) ≤ s
  · have hf : Int.floor s = m := by
      rw [Int.floor_eq_iff]
      exact ⟨hs, by linarith⟩
    rw [hf, if_pos (by linarith)]
  · have hf : Int.floor s = m - 1 := by
      rw [Int.floor_eq_iff]
      push_cast
      exact ⟨by linarith, by linarith⟩
    rw [hf]
    push_cast
    rw [if_neg (by linarith), if_pos (by linarith)]
    ring

/-- An integer rounds to itself. -/
theorem roundHalfEven_intCast (m : ℤ) : roundHalfEven (m : ℚ) = m :=
  roundHalfEven_eq_of_close _ _ (by linarith) (by linarith)

/-- Rounding to the nearest integer does not go below the floor. -/
theorem floor_le_roundHalfEven (q : ℚ) : Int.floor q ≤ roundHalfEven q := by
  unfold roundHalfEven
  split
  · exact le_refl _
  · split
    · omega
    · split <;> omega

/-- Rounding to the nearest integer does not go above the floor plus one. -/
theorem roundHalfEven_le_floor_add_one (q : ℚ) : roundHalfEven q ≤ Int.floor q + 1 := by
  unfold roundHalfEven
  split
  · omega
  · split
    · omega
    · split <;> omega

/-- Rounding to the nearest integer preserves the order. -/
theorem roundHalfEven_mono (p q : ℚ) (h : p ≤ q) : roundHalfEven p ≤ roundHalfEven q := by
  have hfl : Int.floor p ≤ Int.floor q := Int.floor_mono h
  rcases lt_or_eq_of_le hfl with hlt | heq
  · calc roundHalfEven p ≤ Int.floor p + 1 := roundHalfEven_le_floor_add_one p
      _ ≤ Int.floor q := hlt
      _ ≤ roundHalfEven q := floor_le_roundHalfEven q
  · unfold roundHalfEven
    rw [heq]
    have hpq : p - Int.floor q ≤ q - Int.floor q := by linarith
    by_cases h1 : q - Int.floor q < 1 / 2
    · rw [if_pos (lt_of_le_of_lt hpq h1), if_pos h1]
    · rw [if_neg h1]
      by_cases h2 : 1 / 2 < q - Int.floor q
      · rw [if_pos h2]
        split
        · omega
        · split
          · omega
          · split <;> omega
      · rw [if_neg h2]
        have hq : q - Int.floor q = 1 / 2 := le_antisymm (not_lt.mp h2) (not_lt.mp h1)
        by_cases h3 : p - Int.floor q < 1 / 2
        · rw [if_pos h3]
          split <;> omega
        · rw [if_neg h3, if_neg (by linarith)]

/-- Rounding to the nearest integer, ties to even, commutes with negation. -/
theorem roundHalfEven_neg (q : ℚ) : roundHalfEven (-q) = - roundHalfEven q := by
  by_cases hint : (Int.floor q : ℚ) = q
  · rw [← hint, ← Int.cast_neg, roundHalfEven_intCast, roundHalfEven_intCast]
  · have hlt : (Int.floor q : ℚ) < q := lt_of_le_of_ne (Int.floor_le q) hint
    have hlt2 : q < (Int.floor q : ℚ) + 1 := Int.lt_floor_add_one q
    have hf : Int.floor (-q) = - Int.floor q - 1 := by
      rw [Int.floor_eq_iff]
      push_cast
      exact ⟨by linarith, by linarith⟩
    unfold roundHalfEven
    rw [hf]
    push_cast
    by_cases h1 : q - Int.floor q < 1 / 2
    · rw [if_pos h1, if_neg (by linarith), if_pos (by linarith)]
      ring
    · rw [if_neg h1]
      by_cases h2 : 1 / 2 < q - Int.floor q
      · rw [if_pos h2, if_pos (by linarith)]
        ring
      · rw [if_neg h2, if_neg (by linarith), if_neg (by linarith)]
        split <;> split <;> omega

/-- The exponent of the last place puts a positive `q` in `[2^52, 2^53)` units. -/
theorem ulpExponent_spec (q : ℚ) (hq : 0 < q) :
    (2 : ℚ) ^ 52 * 2 ^ ulpExponent q ≤ q ∧ q < 2 ^ 53 * 2 ^ ulpExponent q := by
  have h1 := Int.zpow_log_le_self (b := 2) (r := |q|) (by norm_num) (abs_pos.mpr (ne_of_gt hq))
  have h2 := Int.lt_zpow_succ_log_self (b := 2) (by norm_num) |q|
  rw [abs_of_pos hq] at h1 h2
  unfold ulpExponent
  rw [abs_of_pos hq]
  have e1 : (2 : ℚ) ^ 52 * 2 ^ (Int.log 2 q - 52) = 2 ^ Int.log 2 q := by
    rw [← zpow_natCast, ← zpow_add₀ (by norm_num : (2 : ℚ) ≠ 0)]
    congr 1
    push_cast
    ring
  have e2 : (2 : ℚ) ^ 53 * 2 ^ (Int.log 2 q - 52) = 2 ^ (Int.log 2 q + 1) := by
    rw [← zpow_natCast, ← zpow_add₀ (by norm_num : (2 : ℚ) ≠ 0)]
    congr 1
    push_cast
    ring
  rw [e1, e2]
  push_cast at h1 h2
  exact ⟨h1, h2⟩

/-- The exponent of the last place of a positive `q` is the only `e` with
`2^52 * 2^e ≤ q < 2^53 * 2^e`. -/
theorem ulpExponent_eq (q : ℚ) (e : ℤ) (hq : 0 < q) (hlo : (2 : ℚ) ^ 52 * 2 ^ e ≤ q)
    (hhi : q < 2 ^ 53 * 2 ^ e) : ulpExponent q = e := by
  unfold ulpExponent
  rw [abs_of_pos hq]
  have e1 : (2 : ℚ) ^ 52 * 2 ^ e = ((2 : ℕ) : ℚ) ^ (e + 52) := by
    rw [zpow_add₀ (by norm_num)]
    push_cast
    rw [mul_comm]
    norm_cast
  have e2 : (2 : ℚ) ^ 53 * 2 ^ e = ((2 : ℕ) : ℚ) ^ (e + 53) := by
    rw [zpow_add₀ (by norm_num)]
    push_cast
    rw [mul_comm]
    norm_cast
  rw [e1] at hlo
  rw [e2] at hhi
  have h1 := (Int.zpow_le_iff_le_log (by norm_num : 1 < 2) hq).mp hlo
  have h2 := (Int.lt_zpow_iff_log_lt (by norm_num : 1 < 2) hq).mp hhi
  omega


/-- Powers of two are positive. -/
theorem two_zpow_pos (e : ℤ) : (0 : ℚ) < 2 ^ e := zpow_pos (by norm_num) e

/-- How `roundDouble` is evaluated at a positive `q`: with `e` the exponent of the
last place and `m` an integer within a half of `q / 2^e`, the result is `m * 2^e`. -/
theorem roundDouble_eq (q : ℚ) (e m : ℤ) (hq : 0 < q) (hlo : (2 : ℚ) ^ 52 * 2 ^ e ≤ q)
    (hhi : q < 2 ^ 53 * 2 ^ e) (h1 : ((m : ℚ) - 1 / 2) * 2 ^ e < q)
    (h2 : q < ((m : ℚ) + 1 / 2) * 2 ^ e) : roundDouble q = (m : ℚ) * 2 ^ e := by
  unfold roundDouble
  rw [if_neg (ne_of_gt hq), ulpExponent_eq q e hq hlo hhi]
  have hp := two_zpow_pos e
  rw [roundHalfEven_eq_of_close (q / 2 ^ e) m]
  · rw [lt_div_iff₀ hp]; exact h1
  · rw [div_lt_iff₀ hp]; exact h2

/-- Zero is a `double`. -/
theorem roundDouble_zero : roundDouble 0 = 0 := by
  simp [roundDouble]

/-- The exponent of the last place does not depend on the sign. -/
theorem ulpExponent_neg (q : ℚ) : ulpExponent (-q) = ulpExponent q := by
  unfold ulpExponent
  rw [abs_neg]

/-- Rounding to `double` commutes with negation. -/
theorem roundDouble_neg (q : ℚ) : roundDouble (-q) = - roundDouble q := by
  unfold roundDouble
  by_cases h : q = 0
  · simp [h]
  · rw [if_neg (neg_ne_zero.mpr h), if_neg h, ulpExponent_neg, neg_div, roundHalfEven_neg]
    push_cast
    ring

/-- A positive number rounds to a `double` in the same binade, ends included. -/
theorem roundDouble_bounds (q : ℚ) (hq : 0 < q) :
    (2 : ℚ) ^ 52 * 2 ^ ulpExponent q ≤ roundDouble q ∧
      roundDouble q ≤ 2 ^ 53 * 2 ^ ulpExponent q := by
  obtain ⟨hlo, hhi⟩ := ulpExponent_spec q hq
  have hp := two_zpow_pos (ulpExponent q)
  unfold roundDouble
  rw [if_neg (ne_of_gt hq)]
  have h1 : ((2 ^ 52 : ℤ) : ℚ) ≤ q / 2 ^ ulpExponent q := by
    rw [le_div_iff₀ hp]; push_cast; exact hlo
  have h2 : q / 2 ^ ulpExponent q ≤ ((2 ^ 53 : ℤ) : ℚ) := by
    rw [div_le_iff₀ hp]; push_cast; exact le_of_lt hhi
  have h3 := roundHalfEven_mono _ _ h1
  have h4 := roundHalfEven_mono _ _ h2
  rw [roundHalfEven_intCast] at h3 h4
  have h5 : ((2 ^ 52 : ℤ) : ℚ) ≤ (roundHalfEven (q / 2 ^ ulpExponent q) : ℚ) := by
    exact_mod_cast h3
  have h6 : (roundHalfEven (q / 2 ^ ulpExponent q) : ℚ) ≤ ((2 ^ 53 : ℤ) : ℚ) := by
    exact_mod_cast h4
  push_cast at h5 h6
  exact ⟨mul_le_mul_of_nonneg_right h5 (le_of_lt hp), mul_le_mul_of_nonneg_right h6 (le_of_lt hp)⟩

/-- A positive number rounds to a positive `double`. -/
theorem roundDouble_pos (q : ℚ) (hq : 0 < q) : 0 < roundDouble q :=
  lt_of_lt_of_le (mul_pos (by norm_num) (two_zpow_pos _)) (roundDouble_bounds q hq).1

/-- The exponent of the last place grows with a positive argument. -/
theorem ulpExponent_mono (p q : ℚ) (hp : 0 < p) (h : p ≤ q) : ulpExponent p ≤ ulpExponent q := by
  unfold ulpExponent
  rw [abs_of_pos hp, abs_of_pos (lt_of_lt_of_le hp h)]
  have := Int.log_mono_right (b := 2) hp h
  omega

/-- Rounding to `double` preserves the order of positive numbers. -/
theorem roundDouble_mono_pos (p q : ℚ) (hp : 0 < p) (h : p ≤ q) :
    roundDouble p ≤ roundDouble q := by
  have hq : 0 < q := lt_of_lt_of_le hp h
  rcases lt_or_eq_of_le (ulpExponent_mono p q hp h) with hlt | heq
  · have h1 := (roundDouble_bounds p hp).2
    have h2 := (roundDouble_bounds q hq).1
    have h3 : (2 : ℚ) ^ 53 * 2 ^ ulpExponent p ≤ 2 ^ 52 * 2 ^ ulpExponent q := by
      have h4 : ulpExponent p + 1 ≤ ulpExponent q := hlt
      have h5 : (2 : ℚ) ^ (ulpExponent p + 1) ≤ 2 ^ ulpExponent q :=
        zpow_le_zpow_right₀ (by norm_num) h4
      rw [zpow_add₀ (by norm_num : (2 : ℚ) ≠ 0)] at h5
      have h6 := two_zpow_pos (ulpExponent p)
      nlinarith
    linarith
  · unfold roundDouble
    rw [if_neg (ne_of_gt hp), if_neg (ne_of_gt hq), heq]
    have hpos := two_zpow_pos (ulpExponent q)
    apply mul_le_mul_of_nonneg_right _ (le_of_lt hpos)
    have : roundHalfEven (p / 2 ^ ulpExponent q) ≤ roundHalfEven (q / 2 ^ ulpExponent q) :=
      roundHalfEven_mono _ _ (div_le_div_of_nonneg_right h (le_of_lt hpos))
    exact_mod_cast this

/-- Rounding to `double` preserves the order. -/
theorem roundDouble_mono (p q : ℚ) (h : p ≤ q) : roundDouble p ≤ roundDouble q := by
  rcases lt_trichotomy p 0 with hp | hp | hp
  · rcases lt_trichotomy q 0 with hq | hq | hq
    · have := roundDouble_mono_pos (-q) (-p) (by linarith) (by linarith)
      rw [roundDouble_neg, roundDouble_neg] at this
      linarith
    · have := roundDouble_pos (-p) (by linarith)
      rw [roundDouble_neg] at this
      rw [hq, roundDouble_zero]
      linarith
    · have := roundDouble_pos (-p) (by linarith)
      rw [roundDouble_neg] at this
      have := roundDouble_pos q hq
      linarith
  · rw [hp] at h ⊢
    rcases lt_or_eq_of_le h with hq | hq
    · have := roundDouble_pos q hq
      rw [roundDouble_zero]
      linarith
    · rw [← hq]
  · exact roundDouble_mono_pos p q hp h


/-- The literal `1e-9` as a `double`. -/
theorem roundDouble_1em9 : roundDouble (1 / 10 ^ 9) = 4835703278458517 / 2 ^ 82 := by
  have h := roundDouble_eq (1 / 10 ^ 9) (-82) 4835703278458517 (by norm_num) (by norm_num)
    (by norm_num) (by norm_num) (by norm_num)
  rw [h]
  norm_num

/-- The `double` product of 8500000000000001 by `1e-9`. -/
theorem roundDouble_mul_8500000000000001 : roundDouble (8500000000000001 * (4835703278458517 / 2 ^ 82))
    = 4563402752000001 / 2 ^ 29 := by
  have h := roundDouble_eq (8500000000000001 * (4835703278458517 / 2 ^ 82)) (-29)
    4563402752000001 (by norm_num) (by norm_num) (by norm_num) (by norm_num) (by norm_num)
  rw [h]
  norm_num

/-- The `double` product of 8500000000000002 by `1e-9`: the same value. -/
theorem roundDouble_mul_8500000000000002 : roundDouble (8500000000000002 * (4835703278458517 / 2 ^ 82))
    = 4563402752000001 / 2 ^ 29 := by
  have h := roundDouble_eq (8500000000000002 * (4835703278458517 / 2 ^ 82)) (-29)
    4563402752000001 (by norm_num) (by norm_num) (by norm_num) (by norm_num) (by norm_num)
  rw [h]
  norm_num

/-- A positive integer below `2^53` that is no less than `2^52` is a `double`. -/
theorem roundDouble_8500000000000001 : roundDouble 8500000000000001 = 8500000000000001 := by
  have h := roundDouble_eq 8500000000000001 0 8500000000000001
    (by norm_num) (by norm_num) (by norm_num) (by norm_num) (by norm_num)
  rw [h]
  norm_num

/-- Likewise for the next integer. -/
theorem roundDouble_8500000000000002 : roundDouble 8500000000000002 = 8500000000000002 := by
  have h := roundDouble_eq 8500000000000002 0 8500000000000002
    (by norm_num) (by norm_num) (by norm_num) (by norm_num) (by norm_num)
  rw [h]
  norm_num

/-- The product by `1e-9` in `double` arithmetic preserves the order of the values. -/
theorem binary64Ops_mul1em9_mono (x y : ℚ) (h : x ≤ y) :
    binary64Ops.mul1em9 x ≤ binary64Ops.mul1em9 y := by
  simp only [binary64Ops]
  apply roundDouble_mono
  rw [roundDouble_1em9]
  exact mul_le_mul_of_nonneg_right h (by norm_num)

/-! ## Properties of the loaders -/

section LoaderLemmas

variable {β : Type}

/-- The loop body runs at least once: `getline` is called before `eof()` can hold. -/
theorem getlines_ne_nil (content : List Char) : getlines content ≠ [] := by
  cases content with
  | nil => simp [getlines]
  | cons c rest =>
    unfold getlines
    split
    · simp
    · split <;> simp

/-- The strings read by `getline` are the pieces of the file between newlines. -/
theorem getlines_eq_splitOn (content : List Char) : getlines content = content.splitOn '\n' := by
  induction content with
  | nil => rfl
  | cons c rest ih =>
    rw [List.splitOn, List.splitOnP_cons, ← List.splitOn, ← ih]
    by_cases h : c = '\n'
    · simp [getlines, h]
    · have hb : (c == '\n') = false := by simpa using h
      simp only [getlines, h, if_false, hb, Bool.false_eq_true]
      have hne := getlines_ne_nil rest
      cases hg : getlines rest with
      | nil => exact absurd hg hne
      | cons s more => rfl

/-! ### C8: visual index loading -/

/-- The loop of `LoadImages` from any intermediate state: every non-empty string
appends one path and one timestamp. -/
theorem LoadImages_foldl (D : DoubleOps β) (dir : List Char) (lines : List (List Char))
    (acc : List (List Char) × List β) :
    lines.foldl
      (fun (out : List (List Char) × List β) (s : List Char) =>
        if s ≠ [] then
          (out.1 ++ [dir ++ "/".toList ++ s ++ ".png".toList],
            out.2 ++ [D.div1e9 (valueAfterExtract D s)])
        else out) acc =
      (acc.1 ++ (lines.filter (fun s => decide (s ≠ []))).map
          (fun s => dir ++ "/".toList ++ s ++ ".png".toList),
        acc.2 ++ (lines.filter (fun s => decide (s ≠ []))).map
          (fun s => D.div1e9 (valueAfterExtract D s))) := by
  induction lines generalizing acc with
  | nil => simp
  | cons s rest ih =>
    rw [List.foldl_cons, ih]
    by_cases h : s = []
    · simp [h]
    · simp [h, List.filter_cons]

/-- C8. For every directory string and every content of the index file, the paths
and the timestamps produced by `LoadImages` have one entry for each non-empty line
of the file (the pieces between newlines), in file order; the two sequences have
the same length; and the path of a line is the directory, `/`, the text of the line
as it stands, and `.png`.  The lines `000100` and `000200` under `/data` give
`/data/000100.png` and `/data/000200.png`, with or without a final newline. -/
theorem LoadImages_paths (D : DoubleOps β) (strImagePath fTimes : List Char) :
    (LoadImages D strImagePath fTimes).1 =
      ((fTimes.splitOn '\n').filter (fun s => decide (s ≠ []))).map
        (fun s => strImagePath ++ "/".toList ++ s ++ ".png".toList) ∧
    (LoadImages D strImagePath fTimes).2 =
      ((fTimes.splitOn '\n').filter (fun s => decide (s ≠ []))).map
        (fun s => D.div1e9 (valueAfterExtract D s)) ∧
    (LoadImages D strImagePath fTimes).1.length = (LoadImages D strImagePath fTimes).2.length ∧
    (LoadImages D "/data".toList "000100\n000200\n".toList).1 =
      ["/data/000100.png".toList, "/data/000200.png".toList] ∧
    (LoadImages D "/data".toList "000100\n000200".toList).1 =
      ["/data/000100.png".toList, "/data/000200.png".toList] := by
  have hgen : ∀ dir content : List Char, LoadImages D dir content =
      (((content.splitOn '\n').filter (fun s => decide (s ≠ []))).map
          (fun s => dir ++ "/".toList ++ s ++ ".png".toList),
        ((content.splitOn '\n').filter (fun s => decide (s ≠ []))).map
          (fun s => D.div1e9 (valueAfterExtract D s))) := by
    intro dir content
    rw [LoadImages, LoadImages_foldl, getlines_eq_splitOn]
    simp
  refine ⟨by rw [hgen], by rw [hgen], by rw [hgen]; simp, ?_, ?_⟩
  · rw [hgen]; simp only []; decide
  · rw [hgen]; simp only []; decide

/-! ### C9 and C10: inertial log loading -/

/-- The token loop in terms of the fields of the line: `cnt` advances by the number
of fields read, the slots below the old `cnt` keep their content, the following
slots hold the fields in order, and the slots beyond them keep their content. -/
theorem readFields_eq (D : DoubleOps β) (n : Nat) (ss : List Char) (cnt : Nat)
    (data : Nat → β) (h : cnt + n = 7) :
    readFields D n ss cnt data =
      (cnt + (fields D n ss).length,
        fun i => if i < cnt then data i else ((fields D n ss)[i - cnt]?).getD (data i)) := by
  induction n generalizing ss cnt data with
  | zero =>
    simp only [readFields, fields, List.length_nil, Nat.add_zero, Prod.mk.injEq, true_and]
    funext i
    simp
  | succ n ih =>
    unfold readFields fields
    cases hx : D.extract ss with
    | none =>
      simp only [List.length_nil, Nat.add_zero, Prod.mk.injEq, true_and]
      funext i
      simp
    | some r =>
      obtain ⟨v, ss1⟩ := r
      simp only []
      by_cases h7 : cnt + 1 = 7
      · have hn : n = 0 := by omega
        subst hn
        simp only [h7, if_true, fields, List.length_singleton, Prod.mk.injEq, true_and]
        funext i
        by_cases hi : i = cnt
        · subst hi; simp
        · by_cases hlt : i < cnt
          · simp [hi, hlt]
          · have : i - cnt = (i - cnt - 1) + 1 := by omega
            rw [if_neg hi, if_neg hlt, this]
            simp
      · rw [if_neg h7, ih _ _ _ (by omega)]
        simp only [List.length_cons, Prod.mk.injEq]
        refine ⟨by omega, ?_⟩
        funext i
        by_cases hi : i = cnt
        · subst hi; simp
        · by_cases hlt : i < cnt
          · have : i < cnt + 1 := by omega
            simp [hi, hlt, this]
          · have h1 : ¬ i < cnt + 1 := by omega
            have h2 : i - cnt = (i - (cnt + 1)) + 1 := by omega
            rw [if_neg h1, if_neg hi, if_neg hlt, h2]
            simp

/-- A line that is empty or does not start with a digit leaves `vImus` unchanged. -/
theorem loadImuLine_skip (D : DoubleOps β) (junk : Nat → β) (vImus : List (IMUData β))
    (s : List Char) (h : digitLed s = false) : loadImuLine D junk vImus s = vImus := by
  cases s with
  | nil => rfl
  | cons c r =>
    simp only [digitLed, decide_eq_false_iff_not, not_and_or, not_le] at h
    simp only [loadImuLine]
    rw [if_pos]
    exact h

/-- A line that starts with a digit appends exactly one sample, whatever its
fields: slot `i` of `data` holds field `i` of the line when the line has one, and
its indeterminate content otherwise. -/
theorem loadImuLine_push (D : DoubleOps β) (junk : Nat → β) (vImus : List (IMUData β))
    (s : List Char) (h : digitLed s = true) :
    loadImuLine D junk vImus s =
      vImus ++ [⟨(((fields D 7 s)[1]?).getD (junk 1), ((fields D 7 s)[2]?).getD (junk 2),
          ((fields D 7 s)[3]?).getD (junk 3)),
        (((fields D 7 s)[4]?).getD (junk 4), ((fields D 7 s)[5]?).getD (junk 5),
          ((fields D 7 s)[6]?).getD (junk 6)),
        D.mul1em9 (((fields D 7 s)[0]?).getD (junk 0))⟩] := by
  cases s with
  | nil => simp [digitLed] at h
  | cons c r =>
    simp only [digitLed, decide_eq_true_eq] at h
    simp only [loadImuLine]
    rw [if_neg (by simp only [not_or, not_lt]; exact ⟨h.1, h.2⟩)]
    rw [readFields_eq D 7 (c :: r) 0 junk (by omega)]
    simp

/-- A line that starts with a digit and carries seven fields appends the sample
built from these fields. -/
theorem loadImuLine_wellformed [Inhabited β] (D : DoubleOps β) (junk : Nat → β)
    (vImus : List (IMUData β)) (s : List Char) (h : digitLed s = true)
    (h7 : (fields D 7 s).length = 7) :
    loadImuLine D junk vImus s = vImus ++ [sampleOfFields D (fields D 7 s)] := by
  rw [loadImuLine_push D junk vImus s h]
  have hget : ∀ i, i < 7 → ((fields D 7 s)[i]?).getD (junk i) = (fields D 7 s).getI i := by
    intro i hi
    have hi2 : i < (fields D 7 s).length := by omega
    rw [List.getI_eq_getElem _ hi2, List.getElem?_eq_getElem hi2]
    rfl
  simp only [sampleOfFields, hget 0 (by omega), hget 1 (by omega), hget 2 (by omega),
    hget 3 (by omega), hget 4 (by omega), hget 5 (by omega), hget 6 (by omega)]

/-- The loop of `LoadImus` from any intermediate state: the number of samples grows
by the number of lines that start with a digit, whatever these lines hold. -/
theorem LoadImus_foldl_length (D : DoubleOps β) (junk : Nat → Nat → β)
    (lines : List (List Char)) (acc : List (IMUData β)) :
    (lines.foldl (fun vImus s => loadImuLine D (junk vImus.length) vImus s) acc).length =
      acc.length + (lines.filter digitLed).length := by
  induction lines generalizing acc with
  | nil => simp
  | cons s rest ih =>
    rw [List.foldl_cons, ih]
    cases h : digitLed s with
    | false => rw [loadImuLine_skip D _ acc s h]; simp [List.filter_cons, h]
    | true =>
      rw [loadImuLine_push D _ acc s h]
      simp only [List.length_append, List.length_singleton, List.length_nil, List.filter_cons,
        h, if_true, List.length_cons]
      omega

/-- The loop of `LoadImus` from any intermediate state on well-formed lines: the
samples of the lines that start with a digit are appended in order. -/
theorem LoadImus_foldl_wellformed [Inhabited β] (D : DoubleOps β) (junk : Nat → Nat → β)
    (lines : List (List Char)) (acc : List (IMUData β))
    (hwf : ∀ s ∈ lines, digitLed s = true → (fields D 7 s).length = 7) :
    lines.foldl (fun vImus s => loadImuLine D (junk vImus.length) vImus s) acc =
      acc ++ (lines.filter digitLed).map (fun s => sampleOfFields D (fields D 7 s)) := by
  induction lines generalizing acc with
  | nil => simp
  | cons s rest ih =>
    rw [List.foldl_cons, ih _ (fun x hx => hwf x (List.mem_cons_of_mem _ hx))]
    cases h : digitLed s with
    | false => rw [loadImuLine_skip D _ acc s h]; simp [List.filter_cons, h]
    | true =>
      rw [loadImuLine_wellformed D _ acc s h (hwf s (List.mem_cons_self _ _) h)]
      simp [List.filter_cons, h]

/-- On a well-formed inertial log `LoadImus` yields the samples of the lines that
start with a digit, in file order. -/
theorem LoadImus_wellformed_eq [Inhabited β] (D : DoubleOps β) (junk : Nat → Nat → β)
    (fImus : List Char)
    (hwf : ∀ s ∈ fImus.splitOn '\n', digitLed s = true → (fields D 7 s).length = 7) :
    LoadImus D junk fImus =
      ((fImus.splitOn '\n').filter digitLed).map (fun s => sampleOfFields D (fields D 7 s)) := by
  rw [LoadImus, getlines_eq_splitOn, LoadImus_foldl_wellformed D junk _ [] hwf, List.nil_append]

/-- When the product by `1e-9` preserves the order of the values (as a correctly
rounded product by a positive constant does), a well-formed log whose first fields
are non-decreasing loads with non-decreasing timestamps. -/
theorem LoadImus_sorted_of_sorted [Inhabited β] [LinearOrder β] (D : DoubleOps β)
    (junk : Nat → Nat → β) (fImus : List Char)
    (hmono : ∀ x y, x ≤ y → D.mul1em9 x ≤ D.mul1em9 y)
    (hwf : ∀ s ∈ fImus.splitOn '\n', digitLed s = true → (fields D 7 s).length = 7)
    (hsorted : (((fImus.splitOn '\n').filter digitLed).map
      (fun s => (fields D 7 s).getI 0)).Pairwise (· ≤ ·)) :
    ((LoadImus D junk fImus).map (fun x => x._t)).Pairwise (· ≤ ·) := by
  rw [LoadImus_wellformed_eq D junk fImus hwf, List.map_map, List.pairwise_map]
  rw [List.pairwise_map] at hsorted
  exact hsorted.imp (fun h => hmono _ _ h)

/-- The extraction of `binary64Ops`: the numeral read, rounded to `double`. -/
theorem binary64Ops_extract (ss : List Char) :
    binary64Ops.extract ss = (scanDecimal ss).map (fun r => (roundDouble r.1.toRat, r.2)) :=
  rfl

/-- Reading a numeral in `double` arithmetic preserves the order: of two numerals,
the one that denotes the smaller number is read as the smaller value, or as the
same value. -/
theorem binary64Ops_extract_mono (ss1 ss2 : List Char) (d1 d2 : Decimal) (r1 r2 : List Char)
    (h1 : scanDecimal ss1 = some (d1, r1)) (h2 : scanDecimal ss2 = some (d2, r2))
    (h : d1.toRat ≤ d2.toRat) :
    ∃ v1 v2, binary64Ops.extract ss1 = some (v1, r1) ∧ binary64Ops.extract ss2 = some (v2, r2) ∧
      v1 ≤ v2 := by
  refine ⟨roundDouble d1.toRat, roundDouble d2.toRat, ?_, ?_, roundDouble_mono _ _ h⟩
  · rw [binary64Ops_extract, h1]; rfl
  · rw [binary64Ops_extract, h2]; rfl

/-- The first field of a line is the value of the first extraction. -/
theorem fields_getI_zero [Inhabited β] (D : DoubleOps β) (n : Nat) (ss : List Char) (v : β)
    (r : List Char) (h : D.extract ss = some (v, r)) : (fields D (n + 1) ss).getI 0 = v := by
  unfold fields
  rw [h]
  rfl

/-- C9 as stated fails in `double` arithmetic.  A log of two lines with the first
fields 8500000000000002 and 8500000000000001, in this order, is well formed.  Both
numbers are read exactly, so the timestamps of the input lines decrease.  Their
products by `1e-9` round to the same `double`, `4563402752000001 / 2^29`, so the
loaded timestamps are equal, hence non-decreasing: the loaded order does not tell
the order of the input lines. -/
theorem LoadImus_order_counterexample :
    (∀ s ∈ "8500000000000002 0 0 0 0 0 0\n8500000000000001 0 0 0 0 0 0\n".toList.splitOn '\n',
      digitLed s = true → (fields binary64Ops 7 s).length = 7) ∧
    (("8500000000000002 0 0 0 0 0 0\n8500000000000001 0 0 0 0 0 0\n".toList.splitOn '\n').filter
        digitLed).map (fun s => (fields binary64Ops 7 s).getI 0)
      = [8500000000000002, 8500000000000001] ∧
    (LoadImus binary64Ops (fun _ _ => 0)
        "8500000000000002 0 0 0 0 0 0\n8500000000000001 0 0 0 0 0 0\n".toList).map (fun x => x._t)
      = [4563402752000001 / 2 ^ 29, 4563402752000001 / 2 ^ 29] ∧
    ((LoadImus binary64Ops (fun _ _ => 0)
        "8500000000000002 0 0 0 0 0 0\n8500000000000001 0 0 0 0 0 0\n".toList).map
          (fun x => x._t)).Pairwise (· ≤ ·) ∧
    ¬ ((("8500000000000002 0 0 0 0 0 0\n8500000000000001 0 0 0 0 0 0\n".toList.splitOn
        '\n').filter digitLed).map (fun s => (fields binary64Ops 7 s).getI 0)).Pairwise (· ≤ ·) := by
  have hwf : ∀ s ∈ "8500000000000002 0 0 0 0 0 0\n8500000000000001 0 0 0 0 0 0\n".toList.splitOn '\n',
      digitLed s = true → (fields binary64Ops 7 s).length = 7 := by
    decide
  have hlines : ("8500000000000002 0 0 0 0 0 0\n8500000000000001 0 0 0 0 0 0\n".toList.splitOn
      '\n').filter digitLed =
        ["8500000000000002 0 0 0 0 0 0".toList, "8500000000000001 0 0 0 0 0 0".toList] := by
    decide
  have hs1 : scanDecimal "8500000000000002 0 0 0 0 0 0".toList =
      some (⟨false, 8500000000000002, 0⟩, " 0 0 0 0 0 0".toList) := by
    decide
  have hs2 : scanDecimal "8500000000000001 0 0 0 0 0 0".toList =
      some (⟨false, 8500000000000001, 0⟩, " 0 0 0 0 0 0".toList) := by
    decide
  have hf1 : (fields binary64Ops 7 "8500000000000002 0 0 0 0 0 0".toList).getI 0
      = 8500000000000002 := by
    rw [fields_getI_zero binary64Ops 6 _ (roundDouble 8500000000000002) " 0 0 0 0 0 0".toList
      (by
        rw [binary64Ops_extract, hs1]
        simp [Decimal.toRat])]
    exact roundDouble_8500000000000002
  have hf2 : (fields binary64Ops 7 "8500000000000001 0 0 0 0 0 0".toList).getI 0
      = 8500000000000001 := by
    rw [fields_getI_zero binary64Ops 6 _ (roundDouble 8500000000000001) " 0 0 0 0 0 0".toList
      (by
        rw [binary64Ops_extract, hs2]
        simp [Decimal.toRat])]
    exact roundDouble_8500000000000001
  have hfields : (("8500000000000002 0 0 0 0 0 0\n8500000000000001 0 0 0 0 0 0\n".toList.splitOn
      '\n').filter digitLed).map (fun s => (fields binary64Ops 7 s).getI 0)
        = [8500000000000002, 8500000000000001] := by
    rw [hlines]
    simp only [List.map_cons, List.map_nil, hf1, hf2]
  have hts : (LoadImus binary64Ops (fun _ _ => 0)
      "8500000000000002 0 0 0 0 0 0\n8500000000000001 0 0 0 0 0 0\n".toList).map (fun x => x._t)
        = [4563402752000001 / 2 ^ 29, 4563402752000001 / 2 ^ 29] := by
    rw [LoadImus_wellformed_eq binary64Ops _ _ hwf, hlines]
    simp only [List.map_cons, List.map_nil, sampleOfFields, hf1, hf2]
    simp only [binary64Ops, roundDouble_1em9, roundDouble_mul_8500000000000001,
      roundDouble_mul_8500000000000002]
  refine ⟨hwf, hfields, hts, ?_, ?_⟩
  · rw [hts]
    simp
  · rw [hfields]
    norm_num

/-- C9, amended.  On a well-formed inertial log (every line that starts with a digit
carries seven numeric fields) `LoadImus` yields exactly one sample for each line
that starts with a digit, in file order, built from the seven fields of the line
with the first field multiplied by `1e-9` as timestamp; empty lines and lines that
start with another character yield nothing.  Hence, the product by `1e-9`
preserving the order of the values (as the product of `double` does,
`binary64Ops_mul1em9_mono`), the loaded timestamps are non-decreasing if the first
fields of these lines are.  The converse is not claimed: it fails when two first
fields give the same product. -/
theorem LoadImus_order_preserved [Inhabited β] [LinearOrder β] (D : DoubleOps β)
    (junk : Nat → Nat → β) (fImus : List Char)
    (hmono : ∀ x y, x ≤ y → D.mul1em9 x ≤ D.mul1em9 y)
    (hwf : ∀ s ∈ fImus.splitOn '\n', digitLed s = true → (fields D 7 s).length = 7) :
    LoadImus D junk fImus =
      ((fImus.splitOn '\n').filter digitLed).map (fun s => sampleOfFields D (fields D 7 s)) ∧
    (∀ s, (sampleOfFields D (fields D 7 s))._t = D.mul1em9 ((fields D 7 s).getI 0)) ∧
    ((((fImus.splitOn '\n').filter digitLed).map
        (fun s => (fields D 7 s).getI 0)).Pairwise (· ≤ ·) →
      ((LoadImus D junk fImus).map (fun x => x._t)).Pairwise (· ≤ ·)) :=
  ⟨LoadImus_wellformed_eq D junk fImus hwf, fun _ => rfl,
    LoadImus_sorted_of_sorted D junk fImus hmono hwf⟩

/-- A two-line inertial log: every line that starts with a digit carries seven
fields. -/
theorem wellformed_example :
    ∀ s ∈ "1000000000,0.1,0.2,0.3,-1,2.5,9.81\n#c\n\n2000000000 1 2 3 4 5 6\n".toList.splitOn '\n',
      digitLed s = true → (fields binary64Ops 7 s).length = 7 := by
  decide

/-- The first fields of the two data lines of that log, as read: they do not
decrease. -/
theorem wellformed_example_sorted :
    ((("1000000000,0.1,0.2,0.3,-1,2.5,9.81\n#c\n\n2000000000 1 2 3 4 5 6\n".toList.splitOn
      '\n').filter digitLed).map (fun s => (fields binary64Ops 7 s).getI 0)).Pairwise (· ≤ ·) := by
  have hlines : ("1000000000,0.1,0.2,0.3,-1,2.5,9.81\n#c\n\n2000000000 1 2 3 4 5 6\n".toList.splitOn
      '\n').filter digitLed =
        ["1000000000,0.1,0.2,0.3,-1,2.5,9.81".toList, "2000000000 1 2 3 4 5 6".toList] := by
    decide
  have hs1 : scanDecimal "1000000000,0.1,0.2,0.3,-1,2.5,9.81".toList =
      some (⟨false, 1000000000, 0⟩, ",0.1,0.2,0.3,-1,2.5,9.81".toList) := by
    decide
  have hs2 : scanDecimal "2000000000 1 2 3 4 5 6".toList =
      some (⟨false, 2000000000, 0⟩, " 1 2 3 4 5 6".toList) := by
    decide
  rw [hlines]
  simp only [List.map_cons, List.map_nil]
  rw [fields_getI_zero binary64Ops 6 _ (roundDouble 1000000000) ",0.1,0.2,0.3,-1,2.5,9.81".toList
      (by
        rw [binary64Ops_extract, hs1]
        simp [Decimal.toRat]),
    fields_getI_zero binary64Ops 6 _ (roundDouble 2000000000) " 1 2 3 4 5 6".toList
      (by
        rw [binary64Ops_extract, hs2]
        simp [Decimal.toRat])]
  simp only [List.pairwise_cons, List.mem_singleton, forall_eq, List.not_mem_nil,
    IsEmpty.forall_iff, implies_true, List.Pairwise.nil, and_true]
  exact roundDouble_mono _ _ (by norm_num)

/-- C9 amended, at a concrete input: a log with two data lines, a comment line and an
empty line, read in `double` arithmetic.  Two samples are loaded, and their
timestamps do not decrease. -/
theorem LoadImus_order_witness :
    (∀ x y : ℚ, x ≤ y → binary64Ops.mul1em9 x ≤ binary64Ops.mul1em9 y) ∧
    (LoadImus binary64Ops (fun _ _ => 0)
        "1000000000,0.1,0.2,0.3,-1,2.5,9.81\n#c\n\n2000000000 1 2 3 4 5 6\n".toList).length = 2 ∧
    ((LoadImus binary64Ops (fun _ _ => 0)
        "1000000000,0.1,0.2,0.3,-1,2.5,9.81\n#c\n\n2000000000 1 2 3 4 5 6\n".toList).map
          (fun x => x._t)).Pairwise (· ≤ ·) ∧
    (LoadImus binary64Ops (fun _ _ => 0)
        "1000000000,0.1,0.2,0.3,-1,2.5,9.81\n#c\n\n2000000000 1 2 3 4 5 6\n".toList =
      (("1000000000,0.1,0.2,0.3,-1,2.5,9.81\n#c\n\n2000000000 1 2 3 4 5 6\n".toList.splitOn
        '\n').filter digitLed).map
          (fun s => sampleOfFields binary64Ops (fields binary64Ops 7 s)) ∧
    (∀ s, (sampleOfFields binary64Ops (fields binary64Ops 7 s))._t =
      binary64Ops.mul1em9 ((fields binary64Ops 7 s).getI 0)) ∧
    (((("1000000000,0.1,0.2,0.3,-1,2.5,9.81\n#c\n\n2000000000 1 2 3 4 5 6\n".toList.splitOn
        '\n').filter digitLed).map (fun s => (fields binary64Ops 7 s).getI 0)).Pairwise (· ≤ ·) →
      ((LoadImus binary64Ops (fun _ _ => 0)
        "1000000000,0.1,0.2,0.3,-1,2.5,9.81\n#c\n\n2000000000 1 2 3 4 5 6\n".toList).map
          (fun x => x._t)).Pairwise (· ≤ ·))) :=
  have h := LoadImus_order_preserved binary64Ops (fun _ _ => 0)
    "1000000000,0.1,0.2,0.3,-1,2.5,9.81\n#c\n\n2000000000 1 2 3 4 5 6\n".toList
    binary64Ops_mul1em9_mono wellformed_example
  ⟨binary64Ops_mul1em9_mono,
    by
      rw [h.1, List.length_map]
      decide,
    h.2.2 wellformed_example_sorted, h⟩

/-- C10, at the failing input: a log whose second line `8 9` starts with a digit
and holds two fields.  The claim lets the line add no sample, so that the log loads
like the log without it; `LoadImus` appends a sample for it, whatever the
extraction does, built from slots of `data` that were never written. -/
theorem short_line_adds_sample (D : DoubleOps β) (junk : Nat → Nat → β) :
    (LoadImus D junk "1 2 3 4 5 6 7\n8 9\n".toList).length = 2 ∧
    (LoadImus D junk "1 2 3 4 5 6 7\n".toList).length = 1 ∧
    fields exactOps 7 "8 9".toList = [8, 9] ∧
    LoadImus D junk "8 9\n".toList =
      [⟨(((fields D 7 "8 9".toList)[1]?).getD (junk 0 1),
          ((fields D 7 "8 9".toList)[2]?).getD (junk 0 2),
          ((fields D 7 "8 9".toList)[3]?).getD (junk 0 3)),
        (((fields D 7 "8 9".toList)[4]?).getD (junk 0 4),
          ((fields D 7 "8 9".toList)[5]?).getD (junk 0 5),
          ((fields D 7 "8 9".toList)[6]?).getD (junk 0 6)),
        D.mul1em9 (((fields D 7 "8 9".toList)[0]?).getD (junk 0 0))⟩] := by
  refine ⟨?_, ?_, ?_, ?_⟩
  · rw [LoadImus, LoadImus_foldl_length, List.length_nil, Nat.zero_add]; decide
  · rw [LoadImus, LoadImus_foldl_length, List.length_nil, Nat.zero_add]; decide
  · have h1 : scanDecimal ['8', ' ', '9'] = some (⟨false, 8, 0⟩, [' ', '9']) := by decide
    have h2 : scanDecimal ['9'] = some (⟨false, 9, 0⟩, []) := by decide
    have h3 : scanDecimal [] = none := by decide
    rw [show "8 9".toList = ['8', ' ', '9'] from rfl]
    simp [fields, exactOps, h1, h2, h3, Decimal.toRat]
  · have h : digitLed "8 9".toList = true := by decide
    have hl : getlines "8 9\n".toList = ["8 9".toList, []] := by decide
    rw [LoadImus, hl]
    simp only [List.foldl_cons, List.foldl_nil, List.length_nil]
    rw [loadImuLine_push D _ _ _ h, loadImuLine_skip D _ _ _ (by decide)]
    rfl

end LoaderLemmas

/-! ## Properties of the rest of `main` -/

section MainLemmas

variable {α : Type} [LinearOrder α]

/-- The run of samples below `tf` ends before any sample that is not below `tf`. -/
theorem takeWhile_length_le_of_not {γ : Type} (p : γ → Bool) (l : List γ) (i : Nat)
    (hi : i < l.length) (hp : p l[i] = false) : (l.takeWhile p).length ≤ i := by
  induction l generalizing i with
  | nil => simp at hi
  | cons x rest ih =>
    cases i with
    | zero =>
      simp only [List.getElem_cons_zero] at hp
      simp [List.takeWhile_cons, hp]
    | succ j =>
      simp only [List.getElem_cons_succ] at hp
      simp only [List.length_cons, Nat.add_lt_add_iff_right] at hi
      by_cases hx : p x = true
      · simp only [List.takeWhile_cons, hx, if_true, List.length_cons]
        exact Nat.succ_le_succ (ih j hi hp)
      · simp [List.takeWhile_cons, hx]

/-- The replay loop appends at most one delivery for each iteration left. -/
theorem replayLoop_length_le (vImus : List (IMUData α)) (files : List (List Char))
    (vTimestamps : List α) (imEmpty : List Char → Bool) (nImages : Int)
    (remaining ni c : Nat) (delivered : List (Delivery α)) :
    (replayLoop vImus files vTimestamps imEmpty nImages remaining ni c delivered).delivered.length
      ≤ delivered.length + remaining := by
  induction remaining generalizing ni c delivered with
  | zero => simp [replayLoop]
  | succ n ih =>
    unfold replayLoop
    cases hf : files[ni]? with
    | none => simp
    | some file =>
      cases ht : vTimestamps[ni]? with
      | none => simp
      | some tframe =>
        simp only []
        cases hb : collectBatch tframe (List.drop c vImus) c [] with
        | pastEnd index => simp
        | val r =>
          obtain ⟨vimu, c1⟩ := r
          simp only []
          by_cases hempty : imEmpty file = true
          · rw [if_pos hempty]; simp
          · rw [if_neg hempty]
            split
            · simp
            · have := ih (ni + 1) c1 (delivered ++ [⟨ni, vimu, tframe, c1⟩])
              simp only [List.length_append, List.length_singleton] at this
              omega

/-- Every frame delivered by `replay` has an index below the end index `nImages`. -/
theorem replay_ni_lt (vImus : List (IMUData α)) (files : List (List Char))
    (vTimestamps : List α) (imEmpty : List Char → Bool) (nImages : Int) (d : Delivery α)
    (hd : d ∈ (replay vImus files vTimestamps imEmpty nImages).delivered) :
    (d.ni : Int) < nImages ∧ vTimestamps[d.ni]? = some d.tframe := by
  unfold replay at hd
  cases vImus with
  | nil => simp at hd
  | cons imu0 rest =>
    simp only [] at hd
    cases hs : imageStartSearch imu0._t vTimestamps 0 with
    | pastEnd index => rw [hs] at hd; simp at hd
    | val imagestart =>
      rw [hs] at hd
      simp only [] at hd
      obtain ⟨news, h1, h2, -⟩ := replayLoop_spec (imu0 :: rest) files vTimestamps imEmpty
        nImages (nImages - imagestart).toNat imagestart 0 []
      have hlen := replayLoop_length_le (imu0 :: rest) files vTimestamps imEmpty
        nImages (nImages - imagestart).toNat imagestart 0 []
      rw [h1] at hd hlen
      simp only [List.nil_append, List.length_nil, Nat.zero_add] at hd hlen
      obtain ⟨k, hk⟩ := List.mem_iff_getElem?.mp hd
      obtain ⟨-, -, -, hni, hts, -, -⟩ := Steps_at _ _ _ _ _ h2 k d hk
      have hklt : k < news.length := (List.getElem?_eq_some.mp hk).1
      refine ⟨?_, hts⟩
      omega

end MainLemmas

section TargetInterval

variable {α : Type} [LinearOrder α] [Sub α] [Zero α]

/-! ### C11: target interval -/

/-- C11 as stated fails with a frame limit.  Three frames at 0, 1, 3 are loaded and
the limit is 2: frame 1 is delivered and a subsequent frame exists in the loaded
sequence (frame 2, at 3), so the claim gives `T = 3 - 1`; the code tests
`ni < nImages - 1` with `nImages = 2` and computes `T = 1 - 0`. -/
theorem targetInterval_counterexample :
    (⟨1, [sampleAt 0], 1, 1⟩ : Delivery ℚ) ∈
      (replay [sampleAt 0, sampleAt 10] scenarioFiles [0, 1, 3] (fun _ => false)
        (nImages scenarioFiles.length (some 2))).delivered ∧
    [(0 : ℚ), 1, 3][1 + 1]? = some 3 ∧
    targetInterval [(0 : ℚ), 1, 3] (nImages scenarioFiles.length (some 2)) 1 1 = .val (1 - 0) ∧
    (1 : ℚ) - 0 ≠ 3 - 1 := by
  refine ⟨by decide, by decide, ?_, by norm_num⟩
  simp [targetInterval, nImages]

/-- C11, amended.  Let `nImages` be the end index of the run: the number of loaded
frames without a frame limit, the limit with one, and let it not exceed the number
of loaded frames.  For every frame `ni` delivered by the replay loop, `T` is
`timestamp[ni+1] - timestamp[ni]` if `ni + 1` is below the end index, and
otherwise (final frame of the run) it is `timestamp[ni] - timestamp[ni-1]` when
`ni > 0` and `0` when `ni = 0`.  Without a frame limit `ni + 1` is below the end
index exactly when a subsequent frame exists in the loaded sequence. -/
theorem targetInterval_within_run (vImus : List (IMUData α)) (files : List (List Char))
    (vTimestamps : List α) (argv6 : Option Int) (imEmpty : List Char → Bool) (d : Delivery α)
    (hd : d ∈ (replay vImus files vTimestamps imEmpty (nImages files.length argv6)).delivered)
    (hle : nImages files.length argv6 ≤ vTimestamps.length) :
    ((d.ni : Int) + 1 < nImages files.length argv6 →
      ∃ t, vTimestamps[d.ni + 1]? = some t ∧
        targetInterval vTimestamps (nImages files.length argv6) d.ni d.tframe
          = .val (t - d.tframe)) ∧
    (¬ ((d.ni : Int) + 1 < nImages files.length argv6) → 0 < d.ni →
      ∃ t, vTimestamps[d.ni - 1]? = some t ∧
        targetInterval vTimestamps (nImages files.length argv6) d.ni d.tframe
          = .val (d.tframe - t)) ∧
    (¬ ((d.ni : Int) + 1 < nImages files.length argv6) → d.ni = 0 →
      targetInterval vTimestamps (nImages files.length argv6) d.ni d.tframe = .val 0) ∧
    (argv6 = none → files.length = vTimestamps.length →
      ((d.ni : Int) + 1 < nImages files.length argv6 ↔ d.ni + 1 < vTimestamps.length)) := by
  obtain ⟨hlt, hts⟩ := replay_ni_lt _ _ _ _ _ d hd
  have hin : d.ni < vTimestamps.length := (List.getElem?_eq_some.mp hts).1
  refine ⟨?_, ?_, ?_, ?_⟩
  · intro h
    have h1 : d.ni + 1 < vTimestamps.length := by omega
    refine ⟨vTimestamps[d.ni + 1], List.getElem?_eq_getElem h1, ?_⟩
    have h2 : (d.ni : Int) < nImages files.length argv6 - 1 := by omega
    simp only [targetInterval, h2, if_true, List.getElem?_eq_getElem h1]
  · intro h hpos
    have h1 : d.ni - 1 < vTimestamps.length := by omega
    refine ⟨vTimestamps[d.ni - 1], List.getElem?_eq_getElem h1, ?_⟩
    have h2 : ¬ ((d.ni : Int) < nImages files.length argv6 - 1) := by omega
    simp only [targetInterval, h2, if_false, gt_iff_lt, hpos, if_true,
      List.getElem?_eq_getElem h1]
  · intro h h0
    have h2 : ¬ ((d.ni : Int) < nImages files.length argv6 - 1) := by omega
    simp only [targetInterval, h2, if_false]
    simp [h0]
  · intro hnone hlen
    subst hnone
    simp only [nImages]
    omega

/-- C11 amended, at a concrete input: the scenario of the spec with a frame limit
of 2.  Frame 0 takes the forward difference `0.15 - 0.05`; frame 1, the final frame
of the run, takes the backward difference. -/
theorem targetInterval_witness :
    (⟨1, [sampleAt 0.1], 0.15, 2⟩ : Delivery ℚ) ∈
      (replay scenarioImus scenarioFiles scenarioTimestamps (fun _ => false)
        (nImages scenarioFiles.length (some 2))).delivered ∧
    nImages scenarioFiles.length (some 2) ≤ (scenarioTimestamps.length : Int) ∧
    targetInterval scenarioTimestamps (nImages scenarioFiles.length (some 2)) 1 (0.15 : ℚ)
      = .val (0.15 - 0.05) ∧
    ∃ t, scenarioTimestamps[1 - 1]? = some t ∧
      targetInterval scenarioTimestamps (nImages scenarioFiles.length (some 2)) 1 (0.15 : ℚ)
        = .val (0.15 - t) :=
  have hrun : (⟨1, [sampleAt 0.1], 0.15, 2⟩ : Delivery ℚ) ∈
      (replay scenarioImus scenarioFiles scenarioTimestamps (fun _ => false)
        (nImages scenarioFiles.length (some 2))).delivered := by
    norm_num [replay, replayLoop, collectBatch, imageStartSearch, scenarioImus, scenarioFiles,
      scenarioTimestamps, sampleAt, nImages]
    simp
  ⟨hrun, by decide,
    by norm_num [targetInterval, nImages, scenarioFiles, scenarioTimestamps],
    (targetInterval_within_run scenarioImus scenarioFiles scenarioTimestamps (some 2)
      (fun _ => false) ⟨1, [sampleAt 0.1], 0.15, 2⟩ hrun (by decide)).2.1
        (by decide) (by decide)⟩

end TargetInterval

section ExitCode

variable {α : Type} [LinearOrder α]

/-- The course of the replay loop when no read goes past the end.  Assume the
frames of the run lie inside the loaded files and timestamps, some inertial sample
at or after the cursor (`vImus[m]`) is not earlier than any frame of the run, the
images of the frames before `k` are not empty, and `k` is either the end of the run
or a frame with an empty image.  Then exactly the frames from `ni` to `k - 1` are
delivered, and the loop ends on the empty image of frame `k`, or completes. -/
theorem replayLoop_progress (vImus : List (IMUData α)) (files : List (List Char))
    (vTimestamps : List α) (imEmpty : List Char → Bool) (nImages : Int)
    (remaining ni c : Nat) (delivered : List (Delivery α)) (k m : Nat)
    (hrem : remaining = (nImages - ni).toNat)
    (hk1 : ni ≤ k) (hk2 : k ≤ ni + remaining)
    (hfiles : ni + remaining ≤ files.length) (hts : ni + remaining ≤ vTimestamps.length)
    (hok : ∀ j f, ni ≤ j → j < k → files[j]? = some f → imEmpty f = false)
    (hbad : k < ni + remaining → ∀ f, files[k]? = some f → imEmpty f = true)
    (hm : m < vImus.length) (hcm : c ≤ m)
    (hstop : ∀ j t, ni ≤ j → j < ni + remaining → vTimestamps[j]? = some t →
      t ≤ vImus[m]._t) :
    ∃ (news : List (Delivery α)) (c1 : Nat),
      (replayLoop vImus files vTimestamps imEmpty nImages remaining ni c delivered).delivered
        = delivered ++ news ∧
      news.map (fun d => d.ni) = List.range' ni (k - ni) ∧
      (replayLoop vImus files vTimestamps imEmpty nImages remaining ni c delivered).ending
        = if k < ni + remaining then .imageEmpty k c1 else .completed (cursorAfter c news) := by
  induction remaining generalizing ni c delivered with
  | zero =>
    have hk : k = ni := by omega
    subst hk
    exact ⟨[], 0, by simp [replayLoop, cursorAfter]⟩
  | succ n ih =>
    have hfi : ni < files.length := by omega
    have hti : ni < vTimestamps.length := by omega
    unfold replayLoop
    rw [List.getElem?_eq_getElem hfi, List.getElem?_eq_getElem hti]
    simp only []
    have hle : vTimestamps[ni] ≤ vImus[m]._t :=
      hstop ni _ (le_refl _) (by omega) (List.getElem?_eq_getElem hti)
    have hmc : m - c < (vImus.drop c).length := by
      rw [List.length_drop]; omega
    have hget : (vImus.drop c)[m - c] = vImus[m] := by
      rw [List.getElem_drop]
      congr 1
      omega
    have hstopx : ∃ x ∈ vImus.drop c, vTimestamps[ni] ≤ x._t :=
      ⟨(vImus.drop c)[m - c], List.getElem_mem _, by rw [hget]; exact hle⟩
    rw [collectBatch_of_stop vImus vTimestamps[ni] c hstopx]
    simp only []
    have hc1 : c + ((vImus.drop c).takeWhile (fun x => decide (x._t < vTimestamps[ni]))).length
        ≤ m := by
      have := takeWhile_length_le_of_not (fun x => decide (x._t < vTimestamps[ni]))
        (vImus.drop c) (m - c) hmc (by rw [hget]; simpa using hle)
      omega
    generalize (vImus.drop c).takeWhile (fun x => decide (x._t < vTimestamps[ni])) = vimu
      at hc1 ⊢
    by_cases hempty : imEmpty files[ni] = true
    · rw [if_pos hempty]
      have hk : k = ni := by
        by_contra hne
        have := hok ni files[ni] (le_refl _) (by omega) (List.getElem?_eq_getElem hfi)
        rw [this] at hempty
        exact absurd hempty (by simp)
      subst hk
      exact ⟨[], c + vimu.length, by simp⟩
    · rw [if_neg hempty]
      have hk : ni < k := by
        by_contra hge
        have hk : k = ni := by omega
        subst hk
        exact hempty (hbad (by omega) files[k] (List.getElem?_eq_getElem hfi))
      have hno : ¬ ((ni : Int) < nImages - 1 ∧ vTimestamps[ni + 1]? = none) := by
        rintro ⟨h1, h2⟩
        have h3 : ni + 1 < vTimestamps.length := by omega
        rw [List.getElem?_eq_getElem h3] at h2
        exact absurd h2 (by simp)
      rw [if_neg hno]
      obtain ⟨news, c1, h1, h2, h3⟩ := ih (ni + 1) (c + vimu.length)
        (delivered ++ [⟨ni, vimu, vTimestamps[ni], c + vimu.length⟩])
        (by omega) (by omega) (by omega) (by omega) (by omega)
        (fun j f hj1 hj2 hjf => hok j f (by omega) hj2 hjf)
        (fun hlt f hf => hbad (by omega) f hf)
        hc1
        (fun j t hj1 hj2 hjt => hstop j t (by omega) (by omega) hjt)
      refine ⟨⟨ni, vimu, vTimestamps[ni], c + vimu.length⟩ :: news, c1, ?_, ?_, ?_⟩
      · rw [h1]; simp
      · rw [List.map_cons, h2]
        have : k - ni = (k - (ni + 1)) + 1 := by omega
        rw [this, List.range'_succ]
      · rw [h3]
        have e : ni + 1 + n = ni + (n + 1) := by omega
        simp only [e, cursorAfter]

end ExitCode

section ExitCode2

variable {α : Type} [LinearOrder α]

/-- A start index returned by the search lies inside the frame timestamps. -/
theorem imageStartSearch_val_lt (t0 : α) (l : List α) (s : Nat)
    (h : imageStartSearch t0 l 0 = .val s) : s < l.length := by
  rw [imageStartSearch_eq] at h
  split at h
  · rename_i hlt
    simp only [Nat.zero_add, Read.val.injEq] at h
    omega
  · simp at h

end ExitCode2

/-- The statistics vector keeps the `nImages` entries it is resized to. -/
theorem vTimesTrack_length {α : Type} (n : Nat) (ttrack : Nat → ℚ) (delivered : List (Delivery α)) :
    (vTimesTrack n ttrack delivered).length = n := by
  unfold vTimesTrack
  generalize hv : List.replicate n (0 : ℚ) = v
  have hlen : v.length = n := by rw [← hv]; simp
  clear hv
  induction delivered generalizing v with
  | nil => simpa using hlen
  | cons d ds ih =>
    rw [List.foldl_cons]
    exact ih _ (by simpa using hlen)

/-- With a positive `nImages` and a vector of `nImages` entries the median index is
inside the vector and the statistics are printed. -/
theorem statistics_val (v : List ℚ) (n : Int) (hn : 0 < n) (hlen : v.length = n.toNat) :
    ∃ st, statistics v n = .val st := by
  have hidx : (n.tdiv 2).toNat < (v.insertionSort (· ≤ ·)).length := by
    rw [List.length_insertionSort, hlen, Int.tdiv_eq_ediv (le_of_lt hn) (by decide)]
    omega
  unfold statistics
  simp only []
  rw [List.getElem?_eq_getElem hidx]
  exact ⟨_, rfl⟩

section ExitCode3

variable {α : Type} [LinearOrder α]

/-! ### C14: fatal conditions and exit code -/

/-- Exit codes of `main` on the runs that stay within the vectors (the part of C14
that holds).  (1) With no inertial sample `main` returns 1 and delivers nothing.
(2) With no frame it returns 1 and delivers nothing.  (3) Let `s` be the start
index, let the end index `nImages` not exceed the loaded frames, and let some
inertial sample be no earlier than every frame of the run (so that no batch runs
off the end of the samples).  If the image of frame `k` of the run is empty and
the images of the frames from `s` to `k - 1` are not, `main` returns 1 having
delivered exactly the frames `s, ..., k - 1`.  (4) If instead no image from `s` to
the end index is empty and the end index is at least 1, `main` returns 0 having
delivered exactly the frames from `s` to the end index. -/
theorem exit_codes (vImus : List (IMUData α)) (files : List (List Char))
    (vTimestamps : List α) (argv6 : Option Int) (imEmpty : List Char → Bool)
    (ttrack : Nat → ℚ) :
    (vImus = [] → main vImus files vTimestamps argv6 imEmpty ttrack = ⟨[], .returned 1, none⟩) ∧
    (files = [] → main vImus files vTimestamps argv6 imEmpty ttrack = ⟨[], .returned 1, none⟩) ∧
    (∀ (imu0 : IMUData α) (s k m : Nat),
      vImus[0]? = some imu0 → imageStartSearch imu0._t vTimestamps 0 = .val s →
      files.length = vTimestamps.length →
      nImages files.length argv6 ≤ files.length →
      s ≤ k → (k : Int) < nImages files.length argv6 →
      (∀ j f, s ≤ j → j < k → files[j]? = some f → imEmpty f = false) →
      (∀ f, files[k]? = some f → imEmpty f = true) →
      (∃ x, vImus[m]? = some x ∧ ∀ j t, s ≤ j → (j : Int) < nImages files.length argv6 →
        vTimestamps[j]? = some t → t ≤ x._t) →
      (main vImus files vTimestamps argv6 imEmpty ttrack).outcome = .returned 1 ∧
      (main vImus files vTimestamps argv6 imEmpty ttrack).delivered.map (fun d => d.ni)
        = List.range' s (k - s)) ∧
    (∀ (imu0 : IMUData α) (s m : Nat),
      vImus[0]? = some imu0 → imageStartSearch imu0._t vTimestamps 0 = .val s →
      files.length = vTimestamps.length →
      nImages files.length argv6 ≤ files.length →
      0 < nImages files.length argv6 →
      (∀ j f, s ≤ j → (j : Int) < nImages files.length argv6 → files[j]? = some f →
        imEmpty f = false) →
      (∃ x, vImus[m]? = some x ∧ ∀ j t, s ≤ j → (j : Int) < nImages files.length argv6 →
        vTimestamps[j]? = some t → t ≤ x._t) →
      (main vImus files vTimestamps argv6 imEmpty ttrack).outcome = .returned 0 ∧
      (main vImus files vTimestamps argv6 imEmpty ttrack).delivered.map (fun d => d.ni)
        = List.range' s ((nImages files.length argv6).toNat - s)) := by
  refine ⟨?_, ?_, ?_, ?_⟩
  · intro h
    simp [main, h]
  · intro h
    simp [main, h]
  · intro imu0 s k m h0 hsearch hlen hn hk1 hk2 hok hbad ⟨x, hx, hstop⟩
    obtain ⟨hmlt, hxm⟩ := List.getElem?_eq_some.mp hx
    have hslt := imageStartSearch_val_lt _ _ _ hsearch
    have hv : vImus.length ≠ 0 := by omega
    have hf : files.length ≠ 0 := by omega
    have hneg : ¬ nImages files.length argv6 < 0 := by omega
    obtain ⟨news, c1, h1, h2, h3⟩ := replayLoop_progress vImus files vTimestamps imEmpty
      (nImages files.length argv6) (nImages files.length argv6 - s).toNat s 0 [] k m rfl hk1
      (by omega) (by omega) (by omega) hok (fun _ f hfk => hbad f hfk) hmlt (Nat.zero_le _)
      (fun j t hj1 hj2 hjt => by rw [hxm]; exact hstop j t hj1 (by omega) hjt)
    have hrep : replay vImus files vTimestamps imEmpty (nImages files.length argv6) =
        replayLoop vImus files vTimestamps imEmpty (nImages files.length argv6)
          (nImages files.length argv6 - s).toNat s 0 [] := by
      cases vImus with
      | nil => simp at hv
      | cons a rest =>
        simp only [List.getElem?_cons_zero, Option.some.injEq] at h0
        subst h0
        simp only [replay, hsearch]
    have hend : (replayLoop vImus files vTimestamps imEmpty (nImages files.length argv6)
        (nImages files.length argv6 - s).toNat s 0 []).ending = .imageEmpty k c1 := by
      rw [h3, if_pos (by omega)]
    simp only [main, hv, hf, hneg, if_false, hrep, hend, h1, List.nil_append, h2, and_self]
  · intro imu0 s m h0 hsearch hlen hn hpos hok ⟨x, hx, hstop⟩
    obtain ⟨hmlt, hxm⟩ := List.getElem?_eq_some.mp hx
    have hslt := imageStartSearch_val_lt _ _ _ hsearch
    have hv : vImus.length ≠ 0 := by omega
    have hf : files.length ≠ 0 := by omega
    have hneg : ¬ nImages files.length argv6 < 0 := by omega
    obtain ⟨news, c1, h1, h2, h3⟩ := replayLoop_progress vImus files vTimestamps imEmpty
      (nImages files.length argv6) (nImages files.length argv6 - s).toNat s 0 []
      (s + (nImages files.length argv6 - s).toNat) m rfl (by omega)
      (by omega) (by omega) (by omega)
      (fun j f hj1 hj2 hjf => hok j f hj1 (by omega) hjf)
      (fun hlt => absurd hlt (lt_irrefl _)) hmlt (Nat.zero_le _)
      (fun j t hj1 hj2 hjt => by rw [hxm]; exact hstop j t hj1 (by omega) hjt)
    have hrep : replay vImus files vTimestamps imEmpty (nImages files.length argv6) =
        replayLoop vImus files vTimestamps imEmpty (nImages files.length argv6)
          (nImages files.length argv6 - s).toNat s 0 [] := by
      cases vImus with
      | nil => simp at hv
      | cons a rest =>
        simp only [List.getElem?_cons_zero, Option.some.injEq] at h0
        subst h0
        simp only [replay, hsearch]
    have hend : (replayLoop vImus files vTimestamps imEmpty (nImages files.length argv6)
        (nImages files.length argv6 - s).toNat s 0 []).ending = .completed (cursorAfter 0 news) := by
      rw [h3, if_neg (lt_irrefl _)]
    obtain ⟨st, hst⟩ := statistics_val
      (vTimesTrack (nImages files.length argv6).toNat ttrack
        (replayLoop vImus files vTimestamps imEmpty (nImages files.length argv6)
          (nImages files.length argv6 - s).toNat s 0 []).delivered)
      (nImages files.length argv6) hpos (vTimesTrack_length _ _ _)
    have hcount : s + (nImages files.length argv6 - s).toNat - s
        = (nImages files.length argv6).toNat - s := by omega
    simp only [main, hv, hf, hneg, if_false, hrep, hend, hst]
    rw [h1, List.nil_append, h2, hcount]
    exact ⟨trivial, rfl⟩

/-- The exit codes at concrete inputs: samples at 0, 1, 2, 3 and frames at 1, 2, 3.  When the
image of frame 1 is empty `main` returns 1 having delivered frame 0 only; when
every image decodes it returns 0 having delivered frames 0, 1, 2. -/
theorem exit_codes_witness :
    ((main tieImus scenarioFiles [(1 : ℚ), 2, 3] none
        (fun f => decide (f = "f1.png".toList)) (fun _ => 0)).outcome = .returned 1 ∧
      (main tieImus scenarioFiles [(1 : ℚ), 2, 3] none
        (fun f => decide (f = "f1.png".toList)) (fun _ => 0)).delivered.map (fun d => d.ni)
        = List.range' 0 (1 - 0)) ∧
    ((main tieImus scenarioFiles [(1 : ℚ), 2, 3] none (fun _ => false) (fun _ => 0)).outcome
        = .returned 0 ∧
      (main tieImus scenarioFiles [(1 : ℚ), 2, 3] none (fun _ => false)
        (fun _ => 0)).delivered.map (fun d => d.ni)
        = List.range' 0 ((nImages scenarioFiles.length none).toNat - 0)) :=
  have hstop : ∀ (j : Nat) (t : ℚ), 0 ≤ j → (j : Int) < nImages scenarioFiles.length none →
      [(1 : ℚ), 2, 3][j]? = some t → t ≤ (sampleAt 3)._t := by
    intro j t _ hj hjt
    have hj3 : j < 3 := by
      simp only [nImages, scenarioFiles, List.length_cons, List.length_nil] at hj
      omega
    interval_cases j <;> simp at hjt <;> subst hjt <;> decide
  ⟨(exit_codes tieImus scenarioFiles [(1 : ℚ), 2, 3] none
      (fun f => decide (f = "f1.png".toList)) (fun _ => 0)).2.2.1 (sampleAt 0) 0 1 3
      rfl (by decide) rfl (by decide) (by decide) (by decide)
      (by
        intro j f _ hj hjf
        have hj0 : j = 0 := by omega
        subst hj0
        simp only [scenarioFiles, List.getElem?_cons_zero, Option.some.injEq] at hjf
        subst hjf
        decide)
      (by
        intro f hf
        simp only [scenarioFiles, List.getElem?_cons_succ, List.getElem?_cons_zero,
          Option.some.injEq] at hf
        subst hf
        decide)
      ⟨sampleAt 3, rfl, hstop⟩,
    (exit_codes tieImus scenarioFiles [(1 : ℚ), 2, 3] none (fun _ => false)
      (fun _ => 0)).2.2.2 (sampleAt 0) 0 3
      rfl (by decide) rfl (by decide) (by decide) (fun _ _ _ _ _ => rfl)
      ⟨sampleAt 3, rfl, hstop⟩⟩

end ExitCode3

/-! ### C14: the empty-image check comes after the batch loop -/

/-- C14, at the failing input: one inertial sample at 1 and one frame at 3 whose
image decodes to an empty image.  The claim gives the exit code 1.  `main` decodes
the image, then runs the batch loop, and only then tests `im.empty()`: the batch
loop takes the sample and reads `vImus[1]`, past the end of the one-sample vector,
so the test and its `return 1` are not reached in a defined way.  Nothing is
delivered. -/
theorem empty_image_return_not_reached :
    imageStartSearch (sampleAt 1)._t [(3 : ℚ)] 0 = .val 0 ∧
    collectBatch (3 : ℚ) [sampleAt 1] 0 [] = .pastEnd 1 ∧
    main [sampleAt 1] ["f0.png".toList] [(3 : ℚ)] none (fun _ => true) (fun _ => 0) =
      ⟨[], .pastEnd .vImus 1, none⟩ ∧
    (main [sampleAt 1] ["f0.png".toList] [(3 : ℚ)] none (fun _ => true) (fun _ => 0)).outcome
      ≠ .returned 1 := by
  decide

/-! ### C12: end-of-run statistics -/

/-- Writing slot `n` leaves the slots before it as they were. -/
theorem take_set_self {γ : Type} (l : List γ) (n : Nat) (x : γ) :
    (l.set n x).take n = l.take n :=
  List.ext_getElem? fun i => by
    rw [List.getElem?_take, List.getElem?_take]
    split
    · rw [List.getElem?_set_ne (by omega)]
    · rfl

/-- The statistics vector while the frames `a, a + 1, ...` are delivered in turn:
the slots below `a` keep their content and the following slots hold the measured
durations of the delivered frames, in order.  With `a = 0` the vector is the
sequence of the durations of the delivered frames. -/
theorem vTimesTrack_fill {α : Type} (ttrack : Nat → ℚ) (ds : List (Delivery α)) (a m : Nat)
    (v : List ℚ) (hni : ds.map (fun d => d.ni) = List.range' a m) (hlen : v.length = a + m) :
    ds.foldl (fun v d => v.set d.ni (ttrack d.ni)) v =
      v.take a ++ (List.range' a m).map ttrack := by
  induction ds generalizing a m v with
  | nil =>
    cases m with
    | zero => simp only [List.range'_zero, List.map_nil, List.append_nil, List.foldl_nil]
              rw [List.take_of_length_le (by omega)]
    | succ m => simp [List.range'_succ] at hni
  | cons d ds ih =>
    cases m with
    | zero => simp at hni
    | succ m =>
      rw [List.range'_succ, List.map_cons, List.cons.injEq] at hni
      obtain ⟨hd, hds⟩ := hni
      have ha : a < v.length := by omega
      rw [List.foldl_cons, ih (a + 1) m (v.set d.ni (ttrack d.ni)) hds (by simp; omega), hd,
        List.range'_succ, List.map_cons, List.take_succ, take_set_self,
        List.getElem?_set_self ha]
      simp

/-- When the start index is 0 and all `n` frames are delivered, the statistics
vector is the sequence of the durations of the delivered frames, one entry each. -/
theorem vTimesTrack_all_delivered {α : Type} (n : Nat) (ttrack : Nat → ℚ)
    (ds : List (Delivery α)) (hni : ds.map (fun d => d.ni) = List.range' 0 n) :
    vTimesTrack n ttrack ds = ds.map (fun d => ttrack d.ni) := by
  rw [vTimesTrack, vTimesTrack_fill ttrack ds 0 n _ hni (by simp), List.take_zero,
    List.nil_append, ← hni, List.map_map]
  rfl

/-- With the scenario durations of the spec and every frame delivered from frame 0,
the printed figures are the ones the spec gives: the median 0.03 at the midpoint
index 2 and the mean 0.03. -/
theorem statistics_P6 :
    statistics [0.02, 0.05, 0.01, 0.04, 0.03] 5 = .val ⟨0.03, 0.03⟩ := by
  have h : (Int.tdiv 5 2).toNat = 2 := by decide
  have h2 : Int.toNat 5 = 5 := rfl
  norm_num [statistics, List.insertionSort, List.orderedInsert, h, h2]

/-- C12, at the failing input: frames at 1, 2, 4 and inertial samples starting at 3,
so that the start index is 2 and only frame 2 is delivered, with a processing
duration of 0.03.  The durations of the delivered frames are `[0.03]`, for which
the claim gives the median 0.03 and the mean 0.03.  The vector of `main` has three
entries, two of them the zeros of the frames that were skipped: the median printed
is 0 and the mean 0.01. -/
theorem statistics_count_skipped_frames :
    main [sampleAt 3, sampleAt 10] scenarioFiles [(1 : ℚ), 2, 4] none (fun _ => false)
        (fun _ => 0.03) =
      ⟨[⟨2, [sampleAt 3], 4, 1⟩], .returned 0, some ⟨0, 0.01⟩⟩ ∧
    vTimesTrack 3 (fun _ => (0.03 : ℚ)) [(⟨2, [sampleAt 3], 4, 1⟩ : Delivery ℚ)]
      = [0, 0, 0.03] ∧
    statistics [0.03] 1 = .val ⟨0.03, 0.03⟩ := by
  have h : (Int.tdiv 3 2).toNat = 1 := by decide
  have h2 : Int.toNat 3 = 3 := rfl
  have h3 : (Int.tdiv 1 2).toNat = 0 := by decide
  have h4 : Int.toNat 1 = 1 := rfl
  refine ⟨?_, ?_, ?_⟩
  · norm_num [main, nImages, replay, replayLoop, collectBatch, imageStartSearch, scenarioFiles,
      sampleAt, statistics, vTimesTrack, List.insertionSort, List.orderedInsert, h, h2]
  · simp [vTimesTrack, List.replicate]
  · norm_num [statistics, List.insertionSort, List.orderedInsert, h3, h4]

/-! ### C13: frame limit -/

/-- C13, at the failing input: three frames are loaded and the frame limit is 5.  The
claim bounds the end index by the number of loaded frames; the code takes the limit
as it is, `nImages = 5`.  The loop delivers frames 0, 1, 2 and then, since
`2 < nImages - 1`, reads `vTimestamps[3]`, past the end of the three timestamps. -/
theorem frame_limit_reads_past_end :
    nImages scenarioFiles.length (some 5) = 5 ∧ scenarioFiles.length = 3 ∧
    main tieImus scenarioFiles [(1 : ℚ), 2, 3] (some 5) (fun _ => false) (fun _ => 0) =
      ⟨[⟨0, [sampleAt 0], 1, 1⟩, ⟨1, [sampleAt 1], 2, 2⟩, ⟨2, [sampleAt 2], 3, 3⟩],
        .pastEnd .vTimestamps 3, none⟩ := by
  decide

/-! ### C18: the statistics are well defined -/

/-- C18, at the failing input: valid data and the frame limit 0 (the value `atoi`
also gives for a limit that is not a number).  `main` tests `nImages<=0` before the
limit replaces `nImages`, not after.  The run reaches the statistics with
`nImages = 0`: the vector is empty, the median index `0/2 = 0` is not a valid index,
and the divisor of the mean is 0. -/
theorem statistics_undefined_on_zero_limit :
    nImages scenarioFiles.length (some 0) = 0 ∧
    (replay tieImus scenarioFiles [(1 : ℚ), 2, 3] (fun _ => false)
      (nImages scenarioFiles.length (some 0))).ending = .completed 0 ∧
    vTimesTrack (nImages scenarioFiles.length (some 0)).toNat (fun _ => (0 : ℚ))
      (replay tieImus scenarioFiles [(1 : ℚ), 2, 3] (fun _ => false)
        (nImages scenarioFiles.length (some 0))).delivered = [] ∧
    main tieImus scenarioFiles [(1 : ℚ), 2, 3] (some 0) (fun _ => false) (fun _ => 0) =
      ⟨[], .medianPastEnd 0, none⟩ := by
  decide

/-! ### C15: residual idle -/

/-- When the target interval does not exceed the measured duration the pacer does
not idle. -/
theorem idle_of_le (usecBits : Nat) (T d : ℚ) (h : T ≤ d) : idle usecBits T d = .noSleep := by
  unfold idle
  rw [if_neg (not_lt.mpr h)]

/-- C15, at the failing input: a target interval of 5000 seconds and a processing
duration of 0, or of a quarter of a second.  The claim has the pacer idle for the
residual, 5000 or 4999.75 seconds.  The difference and the product are exact,
`(T-ttrack)*1e6` is 5000000000 or 4999750000; neither number fits the 32-bit
argument of `usleep`, so the conversion has no defined result and the pacer does
not idle for the residual. -/
theorem idle_out_of_range :
    roundDouble ((5000 : ℚ) - 0) = 5000 ∧
    roundDouble ((5000 : ℚ) * 10 ^ 6) = 5000000000 ∧
    ¬ ((5000000000 : Int) < 2 ^ 32) ∧
    idle 32 5000 0 = .outOfRange ∧
    idle 32 5000 (1 / 4) = .outOfRange := by
  have h1 : roundDouble ((5000 : ℚ) - 0) = 5000 := by
    have h := roundDouble_eq ((5000 : ℚ) - 0) (-40) (5000 * 2 ^ 40)
      (by norm_num) (by norm_num) (by norm_num) (by norm_num) (by norm_num)
    rw [h]
    norm_num
  have h2 : roundDouble ((5000 : ℚ) * 10 ^ 6) = ((5000000000 : Int) : ℚ) := by
    have h := roundDouble_eq ((5000 : ℚ) * 10 ^ 6) (-20) (5000000000 * 2 ^ 20)
      (by norm_num) (by norm_num) (by norm_num) (by norm_num) (by norm_num)
    rw [h]
    norm_num
  have h3 : roundDouble ((5000 : ℚ) - 1 / 4) = 19999 / 4 := by
    have h := roundDouble_eq ((5000 : ℚ) - 1 / 4) (-40) (19999 * 2 ^ 38)
      (by norm_num) (by norm_num) (by norm_num) (by norm_num) (by norm_num)
    rw [h]
    norm_num
  have h4 : roundDouble ((19999 / 4 : ℚ) * 10 ^ 6) = ((4999750000 : Int) : ℚ) := by
    have h := roundDouble_eq ((19999 / 4 : ℚ) * 10 ^ 6) (-20) (4999750000 * 2 ^ 20)
      (by norm_num) (by norm_num) (by norm_num) (by norm_num) (by norm_num)
    rw [h]
    norm_num
  refine ⟨h1, by rw [h2]; norm_num, by norm_num, ?_, ?_⟩
  · unfold idle
    rw [if_pos (by norm_num), h1, h2, Int.floor_intCast, if_neg (by norm_num)]
  · unfold idle
    rw [if_pos (by norm_num), h3, h4, Int.floor_intCast, if_neg (by norm_num)]

/-- The idle time is computed from the rounded product, not from the exact residual.
The `double` nearest to 0.29 lies below 0.29; with that target interval and a
duration of 0 the product by `1e6` rounds up to 290000, so the pacer idles for
290000 microseconds, one more than the floor of the exact residual and a time
longer than the target interval. -/
theorem idle_rounds_above :
    roundDouble 0.29 = 5224175567749775 / 2 ^ 54 ∧
    idle 32 (5224175567749775 / 2 ^ 54) 0 = .usleep 290000 ∧
    Int.floor (((5224175567749775 / 2 ^ 54 : ℚ) - 0) * 10 ^ 6) = 289999 ∧
    (5224175567749775 / 2 ^ 54 : ℚ) < 290000 / 10 ^ 6 := by
  have h0 : roundDouble 0.29 = 5224175567749775 / 2 ^ 54 := by
    have h := roundDouble_eq 0.29 (-54) 5224175567749775
      (by norm_num) (by norm_num) (by norm_num) (by norm_num) (by norm_num)
    rw [h]
    norm_num
  have h1 : roundDouble ((5224175567749775 / 2 ^ 54 : ℚ) - 0) = 5224175567749775 / 2 ^ 54 := by
    have h := roundDouble_eq ((5224175567749775 / 2 ^ 54 : ℚ) - 0) (-54) 5224175567749775
      (by norm_num) (by norm_num) (by norm_num) (by norm_num) (by norm_num)
    rw [h]
    norm_num
  have h2 : roundDouble ((5224175567749775 / 2 ^ 54 : ℚ) * 10 ^ 6) = ((290000 : Int) : ℚ) := by
    have h := roundDouble_eq ((5224175567749775 / 2 ^ 54 : ℚ) * 10 ^ 6) (-34) (290000 * 2 ^ 34)
      (by norm_num) (by norm_num) (by norm_num) (by norm_num) (by norm_num)
    rw [h]
    norm_num
  refine ⟨h0, ?_, ?_, by norm_num⟩
  · unfold idle
    rw [if_pos (by norm_num), h1, h2, Int.floor_intCast, if_pos (by norm_num)]
    rfl
  · rw [Int.floor_eq_iff]
    constructor <;> norm_num

/-! ### C16: rolling throughput -/

/-- After the increment `mCurrFrame` is not 0 (short of `2^32` frames in one window),
so the assignment `mBenchTime = time` guarded by `mCurrFrame == 0` does not happen:
a step reports exactly when the time elapsed since `mBenchTime` exceeds 5000 ms,
and a report resets the counter and moves `mBenchTime` to the current time. -/
theorem benchStep_eq (b : Bench) (ms : Nat) (h : b.mCurrFrame + 1 < 2 ^ 32) :
    benchStep b ms =
      if (ms % 2 ^ 32 + 2 ^ 32 - b.mBenchTime) % 2 ^ 32 > 5000 then
        (⟨ms % 2 ^ 32, 0⟩, some ⟨b.mCurrFrame + 1, 5, ((b.mCurrFrame + 1 : Nat) : ℚ) / 5⟩)
      else (⟨b.mBenchTime, b.mCurrFrame + 1⟩, none) := by
  have h1 : (b.mCurrFrame + 1) % 2 ^ 32 = b.mCurrFrame + 1 := Nat.mod_eq_of_lt h
  have h2 : b.mCurrFrame + 1 ≠ 0 := by omega
  simp only [benchStep, h1, h2, if_false]

/-- C16, at the failing input: the replay begins when the clock reads 1700000000000
ms, the first frame is done 33 ms later and the second after another 33 ms.  By the
claim the window starts when the replay began, so that no report is due after
either frame (33 ms and 66 ms have elapsed).  In the code the window start is the
initial value 0 of `mBenchTime`: the first frame sees 3487918113 ms elapsed (the
clock reading modulo `2^32`) and a report of 1 frame in 5 seconds is printed. -/
theorem bench_reports_after_first_frame :
    (1700000000033 - 1700000000000 ≤ 5000 ∧ 1700000000066 - 1700000000000 ≤ 5000) ∧
    1700000000033 % 2 ^ 32 = 3487918113 ∧
    benchRun ⟨0, 0⟩ [1700000000033, 1700000000066] = [some ⟨1, 5, 1 / 5⟩, none] := by
  refine ⟨by decide, by decide, ?_⟩
  simp only [benchRun]
  rw [benchStep_eq _ _ (by decide)]
  rw [if_pos (by decide)]
  simp only []
  rw [benchStep_eq _ _ (by decide)]
  rw [if_neg (by decide)]
  norm_num

/-! ## Properties of the field separators -/

section Separators

variable {β : Type}

/-- A comma or white-space character is one of seven characters. -/
theorem isSep_cases (c : Char) (h : isSep c = true) :
    c = ',' ∨ c = ' ' ∨ c = '\t' ∨ c = '\n' ∨ c = '\x0b' ∨ c = '\x0c' ∨ c = '\r' := by
  simp only [isSep, isspace, Bool.or_eq_true, decide_eq_true_eq] at h
  tauto

theorem isSep_not_digit (c : Char) (h : isSep c = true) : c.isDigit = false := by
  rcases isSep_cases c h with rfl | rfl | rfl | rfl | rfl | rfl | rfl <;> decide

theorem isSep_ne_point (c : Char) (h : isSep c = true) : c ≠ '.' := by
  rcases isSep_cases c h with rfl | rfl | rfl | rfl | rfl | rfl | rfl <;> decide

theorem isspace_isSep (c : Char) (h : isspace c = true) : isSep c = true := by
  simp [isSep, h]

theorem digit_not_space (c : Char) (h : c.isDigit = true) : isspace c = false := by
  cases hs : isspace c with
  | false => rfl
  | true =>
    have := isSep_not_digit c (isspace_isSep c hs)
    rw [this] at h
    exact absurd h (by simp)

/-- A separator the token loop gets past starts with a comma or white space, and
what the loop leaves of it before the next extraction is white space. -/
theorem sepOk_cases (sep : List Char) (h : sepOk sep = true) :
    ∃ c r, sep = c :: r ∧ isSep c = true ∧
      ((c = ',' ∨ c = ' ') ∧ r.all isspace = true ∨
        ¬ (c = ',' ∨ c = ' ') ∧ (c :: r).all isspace = true) := by
  cases sep with
  | nil => simp [sepOk] at h
  | cons c r =>
    refine ⟨c, r, rfl, ?_⟩
    simp only [sepOk] at h
    by_cases hc : c = ',' ∨ c = ' '
    · rw [if_pos hc] at h
      refine ⟨?_, Or.inl ⟨hc, h⟩⟩
      rcases hc with rfl | rfl <;> decide
    · rw [if_neg hc] at h
      refine ⟨?_, Or.inr ⟨hc, h⟩⟩
      have : isspace c = true := by
        simp only [List.all_cons, Bool.and_eq_true] at h
        exact h.1
      exact isspace_isSep c this

/-- The fields read from a row of tokens.  When the extraction reads each token and
each separator between two tokens is one the loop gets past, the fields of the line
are the values of the tokens, in order, whatever follows the last token read. -/
theorem fields_renderRow (D : DoubleOps β) (row : List (List Char × β × List Char))
    (tok : List Char) (v : β) (tail ws : List Char)
    (hrow : ∀ r ∈ row, ReadsToken D r.1 r.2.1 ∧ sepOk r.2.2 = true)
    (htok : ReadsToken D tok v)
    (htail : ∀ c r, tail = c :: r → isSep c = true)
    (hws : ws.all isspace = true) :
    fields D (row.length + 1) (ws ++ renderRow row (tok ++ tail)) =
      row.map (fun r => r.2.1) ++ [v] := by
  induction row generalizing ws with
  | nil =>
    simp only [List.length_nil, Nat.zero_add, renderRow, List.map_nil, List.nil_append]
    rw [← List.append_assoc, fields, htok ws tail hws htail]
    simp [fields]
  | cons e row ih =>
    obtain ⟨t, x, sep⟩ := e
    obtain ⟨hread, hsep⟩ := hrow (t, x, sep) (List.mem_cons_self _ _)
    obtain ⟨c, r, rfl, hc, hcases⟩ := sepOk_cases sep hsep
    have hrest : ∀ c' r', (c :: r) ++ renderRow row (tok ++ tail) = c' :: r' → isSep c' = true := by
      intro c' r' heq
      simp only [List.cons_append, List.cons.injEq] at heq
      rw [← heq.1]; exact hc
    have hx := hread ws ((c :: r) ++ renderRow row (tok ++ tail)) hws hrest
    simp only [renderRow, List.length_cons, List.map_cons, List.cons_append]
    have hshape : ws ++ (t ++ (c :: r) ++ renderRow row (tok ++ tail))
        = ws ++ t ++ ((c :: r) ++ renderRow row (tok ++ tail)) := by
      simp [List.append_assoc]
    rw [hshape, fields, hx]
    simp only [List.cons_append, List.cons.injEq, true_and]
    have hrow2 : ∀ r ∈ row, ReadsToken D r.1 r.2.1 ∧ sepOk r.2.2 = true :=
      fun r hr => hrow r (List.mem_cons_of_mem _ hr)
    rcases hcases with ⟨hcs, hr⟩ | ⟨hcs, hr⟩
    · rw [if_pos hcs]
      exact ih r hrow2 hr
    · rw [if_neg hcs]
      exact ih (c :: r) hrow2 hr

/-- A line that renders seven tokens the extraction reads, separated as the token
loop requires, carries seven fields in the sense of the well-formedness condition
of the inertial log. -/
theorem fields_length_of_row (D : DoubleOps β) (row : List (List Char × β × List Char))
    (tok : List Char) (v : β) (tail : List Char)
    (hlen : row.length = 6)
    (hrow : ∀ r ∈ row, ReadsToken D r.1 r.2.1 ∧ sepOk r.2.2 = true)
    (htok : ReadsToken D tok v)
    (htail : ∀ c r, tail = c :: r → isSep c = true) :
    (fields D 7 (renderRow row (tok ++ tail))).length = 7 := by
  have := fields_renderRow D row tok v tail [] hrow htok htail (by simp)
  rw [hlen] at this
  simp only [List.nil_append] at this
  rw [this]
  simp [hlen]

end Separators

section Tokens

variable {β : Type}

/-- The decimal reader reads a token made of digits: after leading white space, and
when the token is followed by the end of the text, a comma or white space, it
yields the number the digits write and leaves what follows unread. -/
theorem exactOps_readsDigits (ds : List Char) (n : Nat) (hne : ds ≠ [])
    (hd : ∀ c ∈ ds, c.isDigit = true) (hn : natOfDigits ds = n) :
    ReadsToken exactOps ds (n : ℚ) := by
  intro ws rest hws hrest
  have hscan : scanDecimal (ws ++ ds ++ rest) = some (⟨false, n, 0⟩, rest) := by
    obtain ⟨d, ds1, rfl⟩ := List.exists_cons_of_ne_nil hne
    have hdd : d.isDigit = true := hd d (List.mem_cons_self _ _)
    have hdrop : List.dropWhile isspace (ws ++ d :: ds1 ++ rest) = d :: ds1 ++ rest := by
      rw [List.append_assoc, List.dropWhile_append_of_pos (by simpa using hws)]
      simp only [List.cons_append]
      rw [List.dropWhile_cons_of_neg (by simp [digit_not_space d hdd])]
    have hrestd : List.takeWhile Char.isDigit rest = [] ∧ List.dropWhile Char.isDigit rest = rest := by
      cases rest with
      | nil => simp
      | cons c r =>
        have := isSep_not_digit c (hrest c r rfl)
        simp [List.takeWhile_cons, List.dropWhile_cons, this]
    have hspan : List.span Char.isDigit (d :: ds1 ++ rest) = (d :: ds1, rest) := by
      rw [List.span_eq_take_drop, List.takeWhile_append_of_pos hd,
        List.dropWhile_append_of_pos hd, hrestd.1, hrestd.2, List.append_nil]
    have hsign : (match d :: ds1 ++ rest with
        | '-' :: r => (true, r)
        | '+' :: r => (false, r)
        | _ => (false, d :: ds1 ++ rest)) = (false, d :: ds1 ++ rest) := by
      split
      · rename_i heq
        simp only [List.cons_append, List.cons.injEq] at heq
        obtain ⟨rfl, -⟩ := heq
        simp at hdd
      · rename_i heq
        simp only [List.cons_append, List.cons.injEq] at heq
        obtain ⟨rfl, -⟩ := heq
        simp at hdd
      · rfl
    have hfrac : (match rest with
        | '.' :: r => r.span Char.isDigit
        | _ => ([], rest)) = ([], rest) := by
      split
      · rename_i r
        exact absurd rfl (isSep_ne_point '.' (hrest '.' r rfl))
      · rfl
    unfold scanDecimal
    simp only [hdrop, hsign, hspan, hfrac]
    rw [if_neg (by simp)]
    simp [hn]
  show (scanDecimal (ws ++ ds ++ rest)).map (fun r => (r.1.toRat, r.2)) = some ((n : ℚ), rest)
  rw [hscan]
  simp [Decimal.toRat]

end Tokens

section Tokenisation

variable {β : Type}

/-! ### C17: field tokenisation -/

/-- C17 as stated fails for a space followed by a comma.  The line `1 ,2,3,4,5,6,7`
starts with a digit and holds seven numeric tokens.  After the first field the
loop drops the space; the next extraction meets the comma and fails, so one field
is read and the sample is built from `data[1..6]` as they stood before the loop
(0 here), not from the tokens `2, ..., 7`. -/
theorem space_comma_counterexample :
    digitLed "1 ,2,3,4,5,6,7".toList = true ∧
    fields exactOps 7 "1 ,2,3,4,5,6,7".toList = [1] ∧
    LoadImus exactOps (fun _ _ => 0) "1 ,2,3,4,5,6,7".toList =
      [⟨(0, 0, 0), (0, 0, 0), exactOps.mul1em9 1⟩] ∧
    (⟨(0, 0, 0), (0, 0, 0), exactOps.mul1em9 1⟩ : IMUData ℚ) ≠
      ⟨(2, 3, 4), (5, 6, 7), exactOps.mul1em9 1⟩ := by
  have h1 : scanDecimal ['1', ' ', ',', '2', ',', '3', ',', '4', ',', '5', ',', '6', ',', '7']
      = some (⟨false, 1, 0⟩, [' ', ',', '2', ',', '3', ',', '4', ',', '5', ',', '6', ',', '7']) := by
    decide
  have h2 : scanDecimal [',', '2', ',', '3', ',', '4', ',', '5', ',', '6', ',', '7'] = none := by
    decide
  have hf : fields exactOps 7 "1 ,2,3,4,5,6,7".toList = [1] := by
    rw [show "1 ,2,3,4,5,6,7".toList
      = ['1', ' ', ',', '2', ',', '3', ',', '4', ',', '5', ',', '6', ',', '7'] from rfl]
    simp [fields, exactOps, h1, h2, Decimal.toRat]
  have hd : digitLed "1 ,2,3,4,5,6,7".toList = true := by decide
  refine ⟨hd, hf, ?_, ?_⟩
  · have hl : getlines "1 ,2,3,4,5,6,7".toList = ["1 ,2,3,4,5,6,7".toList] := by decide
    rw [LoadImus, hl]
    simp only [List.foldl_cons, List.foldl_nil, List.length_nil]
    rw [loadImuLine_push exactOps _ _ _ hd, hf]
    rfl
  · intro h
    have h2 := congrArg (fun x => x._g.1) h
    simp at h2

/-- C17, amended.  Take a line of seven numeric tokens, possibly followed by more
text, in which the extraction reads each token, each separator between two of the
seven tokens is a comma or a space followed by any white space, or white space
alone, and the seventh token is followed by the end of the line, a comma or white
space.  Then the fields `LoadImus` reads are the values of the seven tokens, in
order, whatever follows them; and when the line starts with a digit the sample
appended is built from these seven values as `[time, wx, wy, wz, ax, ay, az]`. -/
theorem seven_fields_parsed [Inhabited β] (D : DoubleOps β) (junk : Nat → β)
    (vImus : List (IMUData β)) (row : List (List Char × β × List Char))
    (tok : List Char) (v : β) (tail : List Char)
    (hlen : row.length = 6)
    (hrow : ∀ r ∈ row, ReadsToken D r.1 r.2.1 ∧ sepOk r.2.2 = true)
    (htok : ReadsToken D tok v)
    (htail : ∀ c r, tail = c :: r → isSep c = true)
    (hdigit : digitLed (renderRow row (tok ++ tail)) = true) :
    fields D 7 (renderRow row (tok ++ tail)) = row.map (fun r => r.2.1) ++ [v] ∧
    loadImuLine D junk vImus (renderRow row (tok ++ tail)) =
      vImus ++ [sampleOfFields D (row.map (fun r => r.2.1) ++ [v])] := by
  have hf : fields D 7 (renderRow row (tok ++ tail)) = row.map (fun r => r.2.1) ++ [v] := by
    have := fields_renderRow D row tok v tail [] hrow htok htail (by simp)
    rw [hlen] at this
    simpa using this
  refine ⟨hf, ?_⟩
  rw [loadImuLine_wellformed D junk vImus _ hdigit (by rw [hf]; simp [hlen]), hf]

/-- C17 amended, at a concrete input: the line `1,2 3, 4  5` followed by a tab, `6`,
a comma, a tab and `7 8`, read with the decimal reader.  The six separators are a
comma, a space, a comma and a space, two spaces, a tab, and a comma and a tab; the
eighth field is ignored. -/
theorem seven_fields_witness :
    renderRow [("1".toList, (1 : ℚ), ",".toList), ("2".toList, 2, " ".toList),
        ("3".toList, 3, ", ".toList), ("4".toList, 4, "  ".toList),
        ("5".toList, 5, "\t".toList), ("6".toList, 6, ",\t".toList)] ("7".toList ++ " 8".toList)
      = "1,2 3, 4  5\t6,\t7 8".toList ∧
    fields exactOps 7 "1,2 3, 4  5\t6,\t7 8".toList = [1, 2, 3, 4, 5, 6, 7] ∧
    loadImuLine exactOps (fun _ => 0) [] "1,2 3, 4  5\t6,\t7 8".toList =
      [⟨(2, 3, 4), (5, 6, 7), exactOps.mul1em9 1⟩] :=
  have hread : ∀ (ds : List Char) (n : Nat), ds ≠ [] → (∀ c ∈ ds, c.isDigit = true) →
      natOfDigits ds = n → ReadsToken exactOps ds (n : ℚ) := exactOps_readsDigits
  have h := seven_fields_parsed exactOps (fun _ => 0) []
    [("1".toList, (1 : ℚ), ",".toList), ("2".toList, 2, " ".toList),
      ("3".toList, 3, ", ".toList), ("4".toList, 4, "  ".toList),
      ("5".toList, 5, "\t".toList), ("6".toList, 6, ",\t".toList)] "7".toList 7 " 8".toList
    rfl
    (by
      intro r hr
      simp only [List.mem_cons, List.mem_singleton, List.not_mem_nil, or_false] at hr
      rcases hr with rfl | rfl | rfl | rfl | rfl | rfl
      · exact ⟨by simpa using hread "1".toList 1 (by decide) (by decide) (by decide), by decide⟩
      · exact ⟨by simpa using hread "2".toList 2 (by decide) (by decide) (by decide), by decide⟩
      · exact ⟨by simpa using hread "3".toList 3 (by decide) (by decide) (by decide), by decide⟩
      · exact ⟨by simpa using hread "4".toList 4 (by decide) (by decide) (by decide), by decide⟩
      · exact ⟨by simpa using hread "5".toList 5 (by decide) (by decide) (by decide), by decide⟩
      · exact ⟨by simpa using hread "6".toList 6 (by decide) (by decide) (by decide), by decide⟩)
    (by simpa using hread "7".toList 7 (by decide) (by decide) (by decide))
    (by
      intro c r hcr
      have : c = ' ' := by
        have := congrArg List.head? hcr
        simpa using this.symm
      subst this
      decide)
    (by decide)
  ⟨by decide, h.1, h.2⟩

end Tokenisation

end MonoEurocVins
